import Mathlib

/-!
Verification of the onion-forum core (`src/app.py`) against its
natural-language specification.

The Python source is shallowly embedded: strings are `List Char`, SQLite
tables are Lean lists inside a `DB` record, HTTP routes are pure functions
from a `DB` and the parsed form fields to a response paired with the new
`DB`.  Third-party rendering code (markdown-it, bleach) that is not part of
the repository is modelled from the specification and is marked as such in
its doc comment.
-/

namespace OnionForum

/-- Strings are modelled as lists of characters. -/
abbrev Str := List Char

/-- Whitespace recognised by Python's `str.strip` / `str.rstrip`
(ASCII portion; the forum only ever strips these). -/
def isPyWs (c : Char) : Bool :=
  c = ' ' || c = '\t' || c = '\n' || c = '\r' || c = '\x0b' || c = '\x0c'

/-- Python `s.rstrip()`: drop trailing whitespace. -/
def pyRstrip (s : Str) : Str :=
  (s.reverse.dropWhile isPyWs).reverse

/-- Python `s.strip()`: drop leading and trailing whitespace. -/
def pyStrip (s : Str) : Str :=
  pyRstrip (s.dropWhile isPyWs)

/-- Python prefix slice `s[:stop]` for a possibly negative `stop`
(`s[:-1]` keeps all but the last character). -/
def pySlice (s : Str) (stop : Int) : Str :=
  if stop < 0 then s.take (((s.length : Int) + stop).toNat)
  else s.take stop.toNat

/-- Embeds `clamp_text` from `src/app.py` line 206:
`s if len(s) <= max_len else s[: max_len - 1].rstrip() + "…"`. -/
def clamp_text (s : Str) (max_len : Nat) : Str :=
  if s.length ≤ max_len then s
  else pyRstrip (pySlice s ((max_len : Int) - 1)) ++ ['…']

theorem pyRstrip_length_le (s : Str) : (pyRstrip s).length ≤ s.length := by
  unfold pyRstrip
  rw [List.length_reverse]
  calc (s.reverse.dropWhile isPyWs).length
      ≤ s.reverse.length := (List.dropWhile_suffix isPyWs).sublist.length_le
  _ = s.length := List.length_reverse s

theorem pySlice_nonneg (s : Str) (stop : Int) (h : 0 ≤ stop) :
    pySlice s stop = s.take stop.toNat := by
  unfold pySlice
  rw [if_neg (by omega)]

/-- C4, counterexample.  The claim quantifies over every `maxLen`; at
`maxLen = 0` the Python slice `s[: max_len - 1]` is `s[:-1]` (all but the
last character), so `clamp_text "ab" 0 = "a…"` has length `2 > 0`: the
bound `length ≤ maxLen` fails. -/
theorem clamp_text_zero_counterexample :
    clamp_text ['a', 'b'] 0 = ['a', '…'] ∧ 0 < (clamp_text ['a', 'b'] 0).length := by
  constructor <;> decide

/-- C4, amended: for every `maxLen ≥ 1` (all call sites use 140/32/5000/2000),
`clamp_text` returns the input unchanged when it fits, otherwise truncates to
`maxLen - 1` characters, strips trailing whitespace, appends a single
ellipsis, and the result never exceeds `maxLen` characters. -/
theorem clamp_text_amended (s : Str) (max_len : Nat) (h1 : 1 ≤ max_len) :
    (s.length ≤ max_len → clamp_text s max_len = s) ∧
    (max_len < s.length →
      clamp_text s max_len = pyRstrip (s.take (max_len - 1)) ++ ['…']) ∧
    (clamp_text s max_len).length ≤ max_len := by
  refine ⟨fun hle => by simp [clamp_text, hle], fun hgt => ?_, ?_⟩
  · have : clamp_text s max_len
        = pyRstrip (pySlice s ((max_len : Int) - 1)) ++ ['…'] := by
      unfold clamp_text
      rw [if_neg (by omega)]
    rw [this, pySlice_nonneg s _ (by omega)]
    have h4 : ((max_len : Int) - 1).toNat = max_len - 1 := by omega
    rw [h4]
  · unfold clamp_text
    split
    · assumption
    · rw [pySlice_nonneg s _ (by omega)]
      have h2 := pyRstrip_length_le (s.take ((max_len : Int) - 1).toNat)
      have h3 := List.length_take_le ((max_len : Int) - 1).toNat s
      simp only [List.length_append, List.length_singleton]
      omega

/-- Witness for `clamp_text_amended` at `s = "abc"`, `maxLen = 2`. -/
theorem clamp_text_amended_witness :
    clamp_text ['a', 'b', 'c'] 2 = ['a', '…'] ∧
      (clamp_text ['a', 'b', 'c'] 2).length ≤ 2 := by
  have h := clamp_text_amended ['a', 'b', 'c'] 2 (by decide)
  refine ⟨?_, h.2.2⟩
  rw [h.2.1 (by decide)]
  decide

/-! ### `nl2br` (src/app.py lines 479-500)

`pyReplace p rep s` models Python's `s.replace(p, rep)`: a left-to-right
scan replacing non-overlapping occurrences of `p`.  The fuel argument of
the auxiliary function only makes the recursion structural; it is fixed to
`s.length`, which one scan never exhausts. -/

def pyReplaceAux (p rep : Str) : Nat → Str → Str
  | _, [] => []
  | 0, s => s
  | fuel + 1, c :: t =>
      if p.isPrefixOf (c :: t) then rep ++ pyReplaceAux p rep fuel (t.drop (p.length - 1))
      else c :: pyReplaceAux p rep fuel t

/-- Python `s.replace(p, rep)` (for the non-empty patterns used in the app). -/
def pyReplace (p rep s : Str) : Str :=
  pyReplaceAux p rep s.length s

theorem pyReplaceAux_nil (p rep : Str) (n : Nat) : pyReplaceAux p rep n [] = [] := by
  cases n <;> rfl

theorem pyReplaceAux_congr (p rep : Str) :
    ∀ n m s, s.length ≤ n → s.length ≤ m →
      pyReplaceAux p rep n s = pyReplaceAux p rep m s := by
  intro n
  induction n with
  | zero =>
    intro m s hn _
    have : s = [] := List.length_eq_zero.1 (Nat.le_zero.1 hn)
    subst this
    simp [pyReplaceAux_nil]
  | succ n ih =>
    intro m s hn hm
    match s, m with
    | [], _ => simp [pyReplaceAux_nil]
    | c :: t, 0 => simp at hm
    | c :: t, m + 1 =>
      simp only [pyReplaceAux]
      simp only [List.length_cons] at hn hm
      by_cases hp : p.isPrefixOf (c :: t)
      · rw [if_pos hp, if_pos hp]
        have hd : (t.drop (p.length - 1)).length ≤ t.length := by
          simp
        exact congrArg (rep ++ ·) (ih m (t.drop (p.length - 1)) (by omega) (by omega))
      · rw [if_neg hp, if_neg hp]
        exact congrArg (c :: ·) (ih m t (by omega) (by omega))

/-- Unfolding equation for `pyReplace` on a non-empty string. -/
theorem pyReplace_cons (p rep : Str) (c : Char) (t : Str) :
    pyReplace p rep (c :: t) =
      if p.isPrefixOf (c :: t) then rep ++ pyReplace p rep (t.drop (p.length - 1))
      else c :: pyReplace p rep t := by
  show pyReplaceAux p rep (t.length + 1) (c :: t) = _
  simp only [pyReplaceAux]
  by_cases hp : p.isPrefixOf (c :: t)
  · rw [if_pos hp, if_pos hp]
    exact congrArg (rep ++ ·)
      (pyReplaceAux_congr p rep t.length _ _ (by simp) (le_refl _))
  · rw [if_neg hp, if_neg hp]
    rfl

theorem pyReplace_nil (p rep : Str) : pyReplace p rep [] = [] := rfl

/-- The pattern (with the literal `<br>` replacement) used in `nl2br` and
in the sanitizer model. -/
def brTag : Str := ['<', 'b', 'r', '>']

/-- The escaped form `"&lt;br&gt;"` as characters. -/
def escBrPlain : Str := ['&', 'l', 't', ';', 'b', 'r', '&', 'g', 't', ';']

/-- The escaped form `"&lt;br/&gt;"` as characters. -/
def escBrSlash : Str := ['&', 'l', 't', ';', 'b', 'r', '/', '&', 'g', 't', ';']

/-- The escaped form `"&lt;br /&gt;"` as characters. -/
def escBrSpaceSlash : Str :=
  ['&', 'l', 't', ';', 'b', 'r', ' ', '/', '&', 'g', 't', ';']

/-- Embeds `nl2br` from `src/app.py` lines 479-500, applied to a plain string: the
source's chain of `str.replace` calls, in source order. -/
def nl2br (value : Str) : Str :=
  pyReplace ['\n'] brTag
    (pyReplace escBrSpaceSlash brTag
      (pyReplace escBrSlash brTag
        (pyReplace escBrPlain brTag
          (pyReplace ['\r'] ['\n']
            (pyReplace ['\r', '\n'] ['\n'] value)))))

/-- Applies `nl2br` to the raw filter argument: `s = (value or "")` coerces a
missing value to the empty string (src/app.py line 489). -/
def nl2brOpt (value : Option Str) : Str :=
  nl2br (value.getD [])

/-- Spec-side single-pass newline normalisation: every `\r\n` and every
lone `\r` becomes `\n` (spec §4.6 "normalize all newline variants"). -/
def normalizeNewlines : Str → Str
  | '\r' :: '\n' :: t => '\n' :: normalizeNewlines t
  | '\r' :: t => '\n' :: normalizeNewlines t
  | c :: t => c :: normalizeNewlines t
  | [] => []

/-- Spec-side expansion of one character for the final stage: a newline
becomes a literal `<br>`, everything else is kept. -/
def brExpand (c : Char) : Str :=
  if c = '\n' then ['<', 'b', 'r', '>'] else [c]

/-- A replacement never fires on a string avoiding the pattern's first
character, so the string is returned unchanged. -/
theorem pyReplace_id (a : Char) (p rep s : Str) (h : a ∉ s) :
    pyReplace (a :: p) rep s = s := by
  induction s with
  | nil => rfl
  | cons c t ih =>
    rw [pyReplace_cons]
    have hp : ¬ (a :: p).isPrefixOf (c :: t) := by
      simp only [List.isPrefixOf_cons₂]
      intro hc
      exact h (by simp_all [List.mem_cons])
    rw [if_neg hp]
    rw [ih (fun hm => h (List.mem_cons_of_mem _ hm))]

/-- Every character of a replaced string comes from the input or from the
replacement text. -/
theorem pyReplace_mem (p rep : Str) (s : Str) :
    ∀ c ∈ pyReplace p rep s, c ∈ s ∨ c ∈ rep := by
  generalize hn : s.length = n
  induction n using Nat.strong_induction_on generalizing s with
  | _ n ih =>
    match s with
    | [] => simp [pyReplace_nil]
    | c :: t =>
      rw [pyReplace_cons]
      by_cases hp : p.isPrefixOf (c :: t)
      · rw [if_pos hp]
        intro x hx
        rcases List.mem_append.1 hx with h | h
        · exact Or.inr h
        · have hlt : (t.drop (p.length - 1)).length < n := by
            subst hn; simp only [List.length_drop, List.length_cons]; omega
          rcases ih _ hlt _ rfl x h with h' | h'
          · exact Or.inl (List.mem_cons_of_mem _ (List.mem_of_mem_drop h'))
          · exact Or.inr h'
      · rw [if_neg hp]
        intro x hx
        rcases List.mem_cons.1 hx with h | h
        · exact Or.inl (h ▸ List.mem_cons_self _ _)
        · have hlt : t.length < n := by subst hn; simp
          rcases ih _ hlt _ rfl x h with h' | h'
          · exact Or.inl (List.mem_cons_of_mem _ h')
          · exact Or.inr h'

/-- The two newline replaces of `nl2br` implement the spec's single-pass
newline normalisation. -/
theorem newline_replaces_eq_normalize (s : Str) :
    pyReplace ['\r'] ['\n'] (pyReplace ['\r', '\n'] ['\n'] s) =
      normalizeNewlines s := by
  induction s using normalizeNewlines.induct with
  | case1 t ih =>
    rw [pyReplace_cons, if_pos (by simp [List.isPrefixOf])]
    simp only [List.length_cons, List.length_nil, List.length, Nat.add_sub_cancel,
      List.drop_succ_cons, List.drop_zero, List.singleton_append]
    rw [pyReplace_cons, if_neg (by simp [List.isPrefixOf])]
    rw [ih]
    rfl
  | case2 t hne ih =>
    rw [pyReplace_cons, if_neg ?hpre]
    case hpre =>
      match t with
      | [] => simp [List.isPrefixOf]
      | c :: t' =>
        simp only [List.isPrefixOf_cons₂, List.isPrefixOf, Bool.and_eq_true, beq_iff_eq]
        rintro ⟨-, hc, -⟩
        exact hne t' (by rw [← hc])
    rw [pyReplace_cons, if_pos (by simp [List.isPrefixOf])]
    simp only [List.length_cons, List.length_nil, Nat.add_sub_cancel, List.drop_zero,
      List.singleton_append]
    rw [ih]
    match t with
    | [] => rfl
    | c :: t' =>
      have hc : c ≠ '\n' := fun hc => hne t' (by rw [hc])
      simp [normalizeNewlines, hc]
  | case3 c t hne1 hne2 ih =>
    rw [pyReplace_cons, if_neg ?hp1]
    case hp1 =>
      simp only [List.isPrefixOf_cons₂, List.isPrefixOf, Bool.and_eq_true, beq_iff_eq]
      rintro ⟨hc, -⟩
      exact hne2 hc.symm
    rw [pyReplace_cons, if_neg ?hp2]
    case hp2 =>
      simp only [List.isPrefixOf_cons₂, List.isPrefixOf, Bool.and_eq_true, beq_iff_eq]
      rintro ⟨hc, -⟩
      exact hne2 hc.symm
    rw [ih]
    have h1 : ¬ (c = '\x0d') := hne2
    simp [normalizeNewlines, h1]
  | case4 => rfl

/-- The final replace of `nl2br` expands every remaining newline to a
literal `<br>` and touches nothing else. -/
theorem newline_to_br_eq_flatMap (s : Str) :
    pyReplace ['\n'] brTag s = s.flatMap brExpand := by
  induction s with
  | nil => rfl
  | cons c t ih =>
    rw [pyReplace_cons]
    by_cases hc : c = '\n'
    · subst hc
      rw [if_pos (by simp [List.isPrefixOf])]
      simp only [List.length_cons, List.length_nil, Nat.add_sub_cancel, List.drop_zero]
      rw [ih]
      simp [brExpand, brTag]
    · rw [if_neg (by simp [List.isPrefixOf]; exact fun h => hc h.symm)]
      rw [ih]
      simp [brExpand, hc]

/-- The output of the final newline replace never contains a newline. -/
theorem nl_not_mem_newline_to_br (u : Str) : '\n' ∉ pyReplace ['\n'] brTag u := by
  rw [newline_to_br_eq_flatMap]
  simp only [List.mem_flatMap, brExpand]
  rintro ⟨a, -, ha⟩
  by_cases h : a = '\n'
  · simp_all [brTag]
  · rw [if_neg h] at ha
    exact h (List.mem_singleton.1 ha).symm

/-- C9: `nl2br` first normalises `\r\n` and `\r` to `\n` (the spec's
single-pass normalisation), then replaces exactly the escaped forms
`&lt;br&gt;`, `&lt;br/&gt;`, `&lt;br /&gt;` with a real `<br>`, then
replaces every remaining `\n` with `<br>`; no other transformation is
applied (pattern-free input is returned verbatim) and no characters other
than those of a literal `<br>` are ever introduced. -/
theorem nl2br_spec (s : Str) :
    nl2br s =
      pyReplace ['\n'] brTag
        (pyReplace escBrSpaceSlash brTag
          (pyReplace escBrSlash brTag
            (pyReplace escBrPlain brTag (normalizeNewlines s)))) ∧
    pyReplace ['\n'] brTag s = s.flatMap brExpand ∧
    ((∀ c ∈ s, c ≠ '\r' ∧ c ≠ '\n' ∧ c ≠ '&') → nl2br s = s) ∧
    (∀ c ∈ nl2br s, c ∈ s ∨ c ∈ brTag) := by
  refine ⟨?_, newline_to_br_eq_flatMap s, ?_, ?_⟩
  · unfold nl2br
    rw [newline_replaces_eq_normalize]
  · intro h
    have h1 : '\r' ∉ s := fun hm => ((h _ hm).1) rfl
    have h2 : '\n' ∉ s := fun hm => ((h _ hm).2.1) rfl
    have h3 : '&' ∉ s := fun hm => ((h _ hm).2.2) rfl
    unfold nl2br
    simp only [escBrPlain, escBrSlash, escBrSpaceSlash]
    rw [pyReplace_id '\r' ['\n'] ['\n'] s h1]
    rw [pyReplace_id '\r' [] ['\n'] s h1]
    rw [pyReplace_id '&' _ brTag s h3]
    rw [pyReplace_id '&' _ brTag s h3]
    rw [pyReplace_id '&' _ brTag s h3]
    rw [pyReplace_id '\n' [] brTag s h2]
  · intro c hc
    by_cases hcn : c = '\n'
    · exact absurd (hcn ▸ hc) (nl_not_mem_newline_to_br _)
    · unfold nl2br at hc
      rcases pyReplace_mem _ _ _ c hc with hc1 | hx
      · rcases pyReplace_mem _ _ _ c hc1 with hc2 | hx
        · rcases pyReplace_mem _ _ _ c hc2 with hc3 | hx
          · rcases pyReplace_mem _ _ _ c hc3 with hc4 | hx
            · rcases pyReplace_mem _ _ _ c hc4 with hc5 | hx
              · rcases pyReplace_mem _ _ _ c hc5 with hc6 | hx
                · exact Or.inl hc6
                · exact absurd (List.mem_singleton.1 hx) hcn
              · exact absurd (List.mem_singleton.1 hx) hcn
            · exact Or.inr hx
          · exact Or.inr hx
        · exact Or.inr hx
      · exact Or.inr hx

/-- Witness for `nl2br_spec`: a string avoiding all the patterns passes
through `nl2br` unchanged. -/
theorem nl2br_spec_witness : nl2br ['h', 'i'] = ['h', 'i'] :=
  (nl2br_spec ['h', 'i']).2.2.1 (by decide)

/-! ### Pagination (src/app.py lines 227-232, 265, 305-310, 340) -/

/-- Digit run to number, as `int()` does for plain decimal strings. -/
def digitsToNat (s : Str) : Nat :=
  s.foldl (fun n c => n * 10 + (c.toNat - '0'.toNat)) 0

/-- Python `int(s)` restricted to plain decimal strings: surrounding
whitespace, an optional sign, then one or more ASCII digits; anything else
raises `ValueError`, modelled as `none`.  (Underscore digit separators are
not modelled; they do not affect any claim.) -/
def pyInt (s : Str) : Option Int :=
  let t := pyStrip s
  let core : Int × Str :=
    match t with
    | '+' :: r => (1, r)
    | '-' :: r => (-1, r)
    | r => (1, r)
  if core.2 ≠ [] ∧ core.2.all Char.isDigit then
    some (core.1 * digitsToNat core.2)
  else none

/-- The page computation of `index` / `thread_view`
(`max(int(request.args.get("page", "1")), 1)` with `ValueError → 1`). -/
def parsePage (arg : Option Str) : Nat :=
  match pyInt (arg.getD ['1']) with
  | some n => (max n 1).toNat
  | none => 1

/-- Computes `total_pages = max((total + per_page - 1) // per_page, 1)`
(src/app.py lines 265 and 340). -/
def total_pages (total per : Nat) : Nat :=
  max ((total + per - 1) / per) 1

/-- The `LIMIT per OFFSET (page-1)*per` window of an ordered result list. -/
def pageSlice (l : List α) (page per : Nat) : List α :=
  (l.drop ((page - 1) * per)).take per

/-- For a positive row count, `total_pages` is `(total - 1) / per + 1`. -/
theorem total_pages_pos_eq (total per : Nat) (hper : 0 < per) (hpos : 0 < total) :
    total_pages total per = (total - 1) / per + 1 := by
  obtain ⟨m, rfl⟩ : ∃ m, total = m + 1 := ⟨total - 1, by omega⟩
  unfold total_pages
  have he : m + 1 + per - 1 = m + per := by omega
  rw [he, Nat.add_div_right _ hper, Nat.add_sub_cancel]
  exact max_eq_left (Nat.le_add_left 1 _)

/-- The value `total_pages` is exactly the ceiling of `total / per` when rows exist:
it covers all rows and the previous page count would not. -/
theorem total_pages_bounds (total per : Nat) (hper : 0 < per) (hpos : 0 < total) :
    total ≤ total_pages total per * per ∧
      (total_pages total per - 1) * per < total := by
  obtain ⟨m, rfl⟩ : ∃ m, total = m + 1 := ⟨total - 1, by omega⟩
  rw [total_pages_pos_eq _ _ hper (by omega), Nat.add_sub_cancel]
  constructor
  · have h1 := Nat.div_add_mod' m per
    have h2 : m % per < per := Nat.mod_lt _ hper
    have h3 : (m / per + 1) * per = m / per * per + per := by ring
    rw [h3]
    linarith
  · simp only [Nat.add_sub_cancel]
    exact Nat.lt_succ_of_le (Nat.div_mul_le_self m per)

/-- Every row index is covered by `total_pages` pages. -/
theorem total_le_total_pages_mul (total per : Nat) (hper : 0 < per) :
    total ≤ total_pages total per * per := by
  rcases Nat.eq_zero_or_pos total with h0 | h0
  · simp [h0]
  · exact (total_pages_bounds total per hper h0).1

/-- C7: pages are 1-based; a missing, non-numeric or below-1 page parameter
is treated as page 1 (never an error); `total_pages` is
`ceil(total/per)` with a floor of 1 even for zero rows; and a page beyond
the last yields an empty slice while `total_pages` stays at least 1. -/
theorem pagination_spec (l : List Nat) (arg : Option Str) (page total per : Nat)
    (hper : 0 < per) :
    (parsePage none = 1) ∧
    (∀ s, pyInt s = none → parsePage (some s) = 1) ∧
    (∀ s n, pyInt s = some n → n ≤ 1 → parsePage (some s) = 1) ∧
    (1 ≤ parsePage arg) ∧
    (1 ≤ total_pages total per) ∧
    (total = 0 → total_pages total per = 1) ∧
    (0 < total → total ≤ total_pages total per * per ∧
      (total_pages total per - 1) * per < total) ∧
    (l.length = total → total_pages total per < page → pageSlice l page per = []) := by
  refine ⟨rfl, ?_, ?_, ?_, le_max_right _ _, ?_, total_pages_bounds total per hper, ?_⟩
  · intro s hs
    simp [parsePage, hs]
  · intro s n hs hn
    have he : parsePage (some s) = (max n 1).toNat := by
      simp [parsePage, hs]
    rw [he]
    omega
  · unfold parsePage
    cases hp : pyInt (arg.getD ['1']) with
    | none => exact le_refl 1
    | some n => simp only []; omega
  · intro h0
    subst h0
    unfold total_pages
    have h : (0 + per - 1) / per = 0 := Nat.div_eq_of_lt (by omega)
    rw [h]
    exact max_eq_right (Nat.zero_le 1)
  · intro hlen hbeyond
    unfold pageSlice
    have h1 : total_pages total per ≤ page - 1 := by omega
    have h2 : total ≤ (page - 1) * per :=
      le_trans (total_le_total_pages_mul total per hper)
        (Nat.mul_le_mul_right per h1)
    rw [List.drop_eq_nil_of_le (by omega)]
    exact List.take_nil

/-- Witness for `pagination_spec` at `per = 20`, an out-of-range page. -/
theorem pagination_spec_witness :
    total_pages 0 20 = 1 ∧ pageSlice ([] : List Nat) 5 20 = [] := by
  have h := pagination_spec ([] : List Nat) none 5 0 20 (by decide)
  exact ⟨h.2.2.2.2.2.1 rfl, h.2.2.2.2.2.2.2 rfl (by rw [h.2.2.2.2.2.1 rfl]; decide)⟩

/-! ### CSRF guard (src/app.py lines 177-188) -/

/-- HTTP method of a request (only the distinction the hook makes). -/
inductive Method
  | get
  | post
deriving DecidableEq

/-- The session cookie: the only key the app stores is `csrf_token`. -/
structure Session where
  csrf_token : Option Str
deriving DecidableEq

/-- Lookup `request.form.get(k)`: first value for the key, if present. -/
def formGet (form : List (Str × Str)) (k : Str) : Option Str :=
  (form.find? (fun kv => decide (kv.1 = k))).map (·.2)

/-- The form key `"csrf_token"`. -/
def csrfKey : Str := ['c', 's', 'r', 'f', '_', 't', 'o', 'k', 'e', 'n']

/-- A parsed request: method plus form fields. -/
structure Request where
  method : Method
  form : List (Str × Str)

/-- Embeds `csrf_and_session_bootstrap` (src/app.py lines 177-188): issue a token
when the session has none (`fresh` stands for the new `secrets.token_hex(16)`
value), then on POST compare the submitted token with the session token and
abort 400 on a missing or mismatched value.  Returns the updated session and
`some 400` when the request is aborted. -/
def csrf_and_session_bootstrap (fresh : Str) (sess : Session) (req : Request) :
    Session × Option Nat :=
  let sess' : Session :=
    if sess.csrf_token = none then { csrf_token := some fresh } else sess
  if req.method = Method.post then
    let token_form := (formGet req.form csrfKey).getD []
    let token_sess := sess'.csrf_token.getD []
    if token_form = [] ∨ token_form ≠ token_sess then (sess', some 400)
    else (sess', none)
  else (sess', none)

/-- Flask request processing: when the `before_request` hook aborts, the
route handler never runs and the database is returned untouched; otherwise
the handler produces the response and the new database. -/
def runRequest {α : Type} (fresh : Str) (sess : Session) (req : Request) (db : α)
    (handler : Request → α → Nat × α) : (Nat × α) × Session :=
  match csrf_and_session_bootstrap fresh sess req with
  | (sess1, some code) => ((code, db), sess1)
  | (sess1, none) => (handler req db, sess1)

/-- C2: a POST whose form token is missing or differs from the session's
token is answered 400 with the database unchanged (the handler never runs),
and a session's first-ever POST is rejected because the token it would have
to match is the freshly issued random value, which no earlier page render
can have given the client. -/
theorem csrf_rejects_bad_posts {α : Type} (fresh : Str) (sess : Session)
    (req : Request) (db : α) (handler : Request → α → Nat × α)
    (hpost : req.method = Method.post) :
    (∀ tok, sess.csrf_token = some tok →
      ((formGet req.form csrfKey).getD [] = [] ∨
        (formGet req.form csrfKey).getD [] ≠ tok) →
      runRequest fresh sess req db handler = ((400, db), sess)) ∧
    (sess.csrf_token = none →
      ((formGet req.form csrfKey).getD [] = [] ∨
        (formGet req.form csrfKey).getD [] ≠ fresh) →
      runRequest fresh sess req db handler
        = ((400, db), { csrf_token := some fresh })) := by
  constructor
  · intro tok htok hbad
    unfold runRequest csrf_and_session_bootstrap
    rw [htok]
    simp only [reduceCtorEq, if_neg, if_pos hpost]
    rw [if_pos (by simpa [htok] using hbad)]
    simp
  · intro hnone hbad
    unfold runRequest csrf_and_session_bootstrap
    rw [hnone]
    simp only [if_pos, if_pos hpost]
    rw [if_pos (by simpa using hbad)]

/-- Witness for `csrf_rejects_bad_posts`: the first-ever POST of a fresh
session, with no token field, is rejected and the database kept intact. -/
theorem csrf_rejects_bad_posts_witness :
    runRequest ['k'] ⟨none⟩ ⟨Method.post, []⟩ (0 : Nat) (fun _ n => (200, n + 1))
      = ((400, 0), ⟨some ['k']⟩) :=
  (csrf_rejects_bad_posts ['k'] ⟨none⟩ ⟨Method.post, []⟩ 0 _ rfl).2 rfl (by decide)

/-! ### The relational store (src/app.py lines 101-174, 350-455) -/

/-- A `categories` row. -/
structure Category where
  id : Nat
  slug : Str
  name : Str
deriving DecidableEq

/-- A `threads` row. -/
structure Thread where
  id : Nat
  title : Str
  posts_count : Nat
  created_at : Nat
  last_activity_at : Nat
  category_id : Option Nat
deriving DecidableEq

/-- A `posts` row. -/
structure Post where
  id : Nat
  thread_id : Nat
  author : Str
  content : Str
  created_at : Nat
deriving DecidableEq

/-- A `comments` row. -/
structure Comment where
  id : Nat
  post_id : Nat
  author : Str
  content : Str
  created_at : Nat
deriving DecidableEq

/-- The SQLite database: table rows in insertion (= id) order, the next
AUTOINCREMENT value for each table, and the schema facts `init_db`
manipulates (tables created, `threads.category_id` column present). -/
structure DB where
  tablesCreated : Bool
  hasCategoryIdCol : Bool
  categories : List Category
  nextCategoryId : Nat
  threads : List Thread
  nextThreadId : Nat
  posts : List Post
  nextPostId : Nat
  comments : List Comment
  nextCommentId : Nat
deriving DecidableEq

/-- The query `SELECT id FROM categories ORDER BY id ASC LIMIT 1`. -/
def lowestCategory : List Category → Option Category
  | [] => none
  | c :: t =>
    match lowestCategory t with
    | none => some c
    | some d => some (if c.id ≤ d.id then c else d)

/-- The four seeded categories (src/app.py lines 155-160) with their
AUTOINCREMENT ids. -/
def defaultCategories (firstId : Nat) : List Category :=
  [⟨firstId, ['t','e','c','h','n','o','l','o','g','y'], ['T','e','c','h','n','o','l','o','g','y']⟩,
   ⟨firstId + 1, ['l','e','a','r','n','i','n','g'], ['L','e','a','r','n','i','n','g']⟩,
   ⟨firstId + 2, ['p','o','l','i','t','i','c','s'], ['P','o','l','i','t','i','c','s']⟩,
   ⟨firstId + 3, ['s','e','c','r','e','t'], ['S','e','c','r','e','t']⟩]

/-- The update `UPDATE threads SET category_id = COALESCE(category_id, d) WHERE
category_id IS NULL` against the lowest existing category. -/
def backfillThreads (cats : List Category) (threads : List Thread) : List Thread :=
  match lowestCategory cats with
  | none => threads
  | some d => threads.map (fun t =>
      if t.category_id = none then { t with category_id := some d.id } else t)

/-- Embeds `init_db` (src/app.py lines 101-174): create tables and indexes if
absent; add the `category_id` column when schema introspection
(`PRAGMA table_info`) shows it missing; seed the four default categories
only when the category table is empty; backfill null thread categories to
the lowest category id. -/
def init_db (db : DB) : DB :=
  let db1 := { db with tablesCreated := true }
  let db2 :=
    if db1.hasCategoryIdCol then db1 else { db1 with hasCategoryIdCol := true }
  let db3 :=
    if db2.categories.length = 0 then
      { db2 with
          categories := db2.categories ++ defaultCategories db2.nextCategoryId,
          nextCategoryId := db2.nextCategoryId + 4 }
    else db2
  { db3 with threads := backfillThreads db3.categories db3.threads }

/-- A route response: a redirect to a thread page, or an `abort(code)`. -/
inductive Resp
  | redirect (thread_id : Nat)
  | err (code : Nat)
deriving DecidableEq

/-- Python `str.isdigit` for ASCII content: non-empty and all digits. -/
def pyIsDigit (s : Str) : Bool :=
  !s.isEmpty && s.all Char.isDigit

/-- The query `SELECT id FROM categories WHERE id = ?`. -/
def findCategory (cats : List Category) (i : Nat) : Option Category :=
  cats.find? (fun c => c.id == i)

/-- The default author `"anon"`. -/
def anonName : Str := ['a', 'n', 'o', 'n']

/-- Category resolution of `create_thread` (src/app.py lines 365-378): a
supplied all-digit id that names an existing row wins, otherwise the
lowest-id category, otherwise nothing. -/
def resolvedCategory (db : DB) (catF : Option Str) : Option Category :=
  let catRow0 : Option Category :=
    match catF with
    | some s => if pyIsDigit s then findCategory db.categories (digitsToNat s) else none
    | none => none
  match catRow0 with
  | some c => some c
  | none => lowestCategory db.categories

/-- Embeds `create_thread` (src/app.py lines 350-395): validate title/content,
clamp fields, resolve the category (explicit numeric id if it names an
existing row, else the lowest-id category, else abort 400), then insert the
thread with `posts_count 0`, insert its first post, and bump the counter
and `last_activity_at` to the insertion timestamp. -/
def create_thread (db : DB) (titleF authorF contentF catF : Option Str)
    (ts : Nat) : Resp × DB :=
  let title := pyStrip (titleF.getD [])
  let author0 := pyStrip (authorF.getD [])
  let author := if author0 = [] then anonName else author0
  let content := pyStrip (contentF.getD [])
  if title = [] ∨ content = [] then (Resp.err 400, db)
  else
    let title1 := clamp_text title 140
    let author1 := clamp_text author 32
    let content1 := clamp_text content 5000
    match resolvedCategory db catF with
    | none => (Resp.err 400, db)
    | some cat =>
        let tid := db.nextThreadId
        let th : Thread := ⟨tid, title1, 0, ts, ts, some cat.id⟩
        let p : Post := ⟨db.nextPostId, tid, author1, content1, ts⟩
        let threads1 := (db.threads ++ [th]).map (fun t =>
          if t.id = tid then
            { t with posts_count := t.posts_count + 1, last_activity_at := ts }
          else t)
        (Resp.redirect tid,
          { db with
              threads := threads1,
              nextThreadId := tid + 1,
              posts := db.posts ++ [p],
              nextPostId := db.nextPostId + 1 })

/-- Embeds `reply` (src/app.py lines 397-423): 404 when the thread does not exist,
400 on empty content, otherwise insert the post and bump the thread's
counter and `last_activity_at`. -/
def reply (db : DB) (thread_id : Nat) (authorF contentF : Option Str)
    (ts : Nat) : Resp × DB :=
  if db.threads.any (fun t => t.id == thread_id) then
    let author0 := pyStrip (authorF.getD [])
    let author := if author0 = [] then anonName else author0
    let content := pyStrip (contentF.getD [])
    if content = [] then (Resp.err 400, db)
    else
      let p : Post := ⟨db.nextPostId, thread_id, clamp_text author 32,
        clamp_text content 5000, ts⟩
      (Resp.redirect thread_id,
        { db with
            posts := db.posts ++ [p],
            nextPostId := db.nextPostId + 1,
            threads := db.threads.map (fun t =>
              if t.id = thread_id then
                { t with posts_count := t.posts_count + 1, last_activity_at := ts }
              else t) })
  else (Resp.err 404, db)

/-- Embeds `comment` (src/app.py lines 425-455): 404 when the post does not exist,
400 on empty content, otherwise insert the comment and bump the owning
thread's `last_activity_at` (not its `posts_count`). -/
def comment (db : DB) (post_id : Nat) (authorF contentF : Option Str)
    (ts : Nat) : Resp × DB :=
  match db.posts.find? (fun p => p.id == post_id) with
  | none => (Resp.err 404, db)
  | some post =>
      let author0 := pyStrip (authorF.getD [])
      let author := if author0 = [] then anonName else author0
      let content := pyStrip (contentF.getD [])
      if content = [] then (Resp.err 400, db)
      else
        let c : Comment := ⟨db.nextCommentId, post_id, clamp_text author 32,
          clamp_text content 2000, ts⟩
        (Resp.redirect post.thread_id,
          { db with
              comments := db.comments ++ [c],
              nextCommentId := db.nextCommentId + 1,
              threads := db.threads.map (fun t =>
                if t.id = post.thread_id then { t with last_activity_at := ts }
                else t) })

/-! ### Thread counter and activity invariants (claim C3) -/

/-- The query `SELECT * FROM posts WHERE thread_id = ?`. -/
def postsOf (db : DB) (tid : Nat) : List Post :=
  db.posts.filter (fun p => p.thread_id == tid)

/-- The comments attached to the posts of a thread. -/
def commentsOfThread (db : DB) (tid : Nat) : List Comment :=
  db.comments.filter (fun c => (postsOf db tid).any (fun p => p.id == c.post_id))

/-- Creation timestamps of a thread's posts and of the comments on them. -/
def activityTimes (db : DB) (tid : Nat) : List Nat :=
  (postsOf db tid).map Post.created_at ++
    (commentsOfThread db tid).map Comment.created_at

/-- Maximum of a list of timestamps (0 for the empty list; every reachable
thread has at least its first post, so the list is never empty there). -/
def listMax (l : List Nat) : Nat := l.foldr max 0

/-- The denormalised counter matches the row count, and `last_activity_at`
is the maximum creation timestamp over the thread's posts and their
comments. -/
def Inv (db : DB) : Prop :=
  ∀ t ∈ db.threads,
    t.posts_count = (postsOf db t.id).length ∧
    t.last_activity_at = listMax (activityTimes db t.id)

/-- Well-formedness that SQLite's AUTOINCREMENT primary keys and the
app's insert-only write paths guarantee: ids are below the next
AUTOINCREMENT value and primary keys are unique. -/
def WF (db : DB) : Prop :=
  (∀ t ∈ db.threads, t.id < db.nextThreadId) ∧
  db.threads.Pairwise (fun a b => a.id ≠ b.id) ∧
  (∀ p ∈ db.posts, p.id < db.nextPostId ∧ p.thread_id < db.nextThreadId) ∧
  db.posts.Pairwise (fun a b => a.id ≠ b.id) ∧
  (∀ c ∈ db.comments, c.post_id < db.nextPostId)

/-- All timestamps stored so far are at most `ts`: `int(time.time())` is
non-decreasing across requests. -/
def tsOk (db : DB) (ts : Nat) : Prop :=
  (∀ t ∈ db.threads, t.last_activity_at ≤ ts ∧ t.created_at ≤ ts) ∧
  (∀ p ∈ db.posts, p.created_at ≤ ts) ∧
  (∀ c ∈ db.comments, c.created_at ≤ ts)

/-- One mutating forum operation together with its request data and its
`now_ts()` timestamp. -/
inductive Op
  | createThread (titleF authorF contentF catF : Option Str) (ts : Nat)
  | addReply (thread_id : Nat) (authorF contentF : Option Str) (ts : Nat)
  | addComment (post_id : Nat) (authorF contentF : Option Str) (ts : Nat)

/-- The timestamp an operation runs at. -/
def Op.ts : Op → Nat
  | .createThread _ _ _ _ ts => ts
  | .addReply _ _ _ ts => ts
  | .addComment _ _ _ ts => ts

/-- The database state after an operation (failed requests leave the
database untouched, which the route functions already encode). -/
def applyOp (db : DB) : Op → DB
  | .createThread a b c d ts => (create_thread db a b c d ts).2
  | .addReply tid a c ts => (reply db tid a c ts).2
  | .addComment pid a c ts => (comment db pid a c ts).2

/-- Fold a sequence of operations over a database. -/
def applyOps (db : DB) : List Op → DB
  | [] => db
  | op :: rest => applyOps (applyOp db op) rest

/-- Clock sanity along a run: each operation's timestamp is at least every
timestamp already stored when it executes. -/
def StepsOk : DB → List Op → Prop
  | _, [] => True
  | db, op :: rest => tsOk db op.ts ∧ StepsOk (applyOp db op) rest

theorem listMax_cons (x : Nat) (l : List Nat) :
    listMax (x :: l) = max x (listMax l) := rfl

theorem listMax_append (a b : List Nat) :
    listMax (a ++ b) = max (listMax a) (listMax b) := by
  induction a with
  | nil => simp [listMax]
  | cons x t ih =>
    rw [List.cons_append, listMax_cons, listMax_cons, ih]
    omega

theorem listMax_le {l : List Nat} {n : Nat} (h : ∀ x ∈ l, x ≤ n) :
    listMax l ≤ n := by
  induction l with
  | nil => simp [listMax]
  | cons x t ih =>
    rw [listMax_cons]
    have h1 := h x (List.mem_cons_self x t)
    have h2 := ih (fun y hy => h y (List.mem_cons_of_mem x hy))
    omega

theorem eq_of_mem_of_pairwise_ne {α : Type} (key : α → Nat) {l : List α}
    (hp : l.Pairwise (fun a b => key a ≠ key b)) {a b : α}
    (ha : a ∈ l) (hb : b ∈ l) (hk : key a = key b) : a = b := by
  induction l with
  | nil => cases ha
  | cons x t ih =>
    rcases List.pairwise_cons.1 hp with ⟨hx, ht⟩
    rcases List.mem_cons.1 ha with rfl | ha'
    · rcases List.mem_cons.1 hb with rfl | hb'
      · rfl
      · exact absurd hk (hx b hb')
    · rcases List.mem_cons.1 hb with rfl | hb'
      · exact absurd hk.symm (hx a ha')
      · exact ih ht ha' hb'


/-! #### Success-state definitions and route characterisations -/

/-- The post row `reply` inserts. -/
def replyPost (db : DB) (tid : Nat) (aF cF : Option Str) (ts : Nat) : Post :=
  ⟨db.nextPostId, tid,
    clamp_text (if pyStrip (aF.getD []) = [] then anonName
      else pyStrip (aF.getD [])) 32,
    clamp_text (pyStrip (cF.getD [])) 5000, ts⟩

/-- State change of a successful `reply`: insert the post, bump the
thread's counter and `last_activity_at`. -/
def insertPostBump (db : DB) (p : Post) (tid ts : Nat) : DB :=
  { db with
      posts := db.posts ++ [p],
      nextPostId := db.nextPostId + 1,
      threads := db.threads.map (fun t =>
        if t.id = tid then
          { t with posts_count := t.posts_count + 1, last_activity_at := ts }
        else t) }

/-- The thread row `create_thread` inserts (before the counter bump). -/
def newThread (db : DB) (titleF : Option Str) (catId ts : Nat) : Thread :=
  ⟨db.nextThreadId, clamp_text (pyStrip (titleF.getD [])) 140, 0, ts, ts,
    some catId⟩

/-- The first post `create_thread` inserts. -/
def firstPost (db : DB) (aF cF : Option Str) (ts : Nat) : Post :=
  ⟨db.nextPostId, db.nextThreadId,
    clamp_text (if pyStrip (aF.getD []) = [] then anonName
      else pyStrip (aF.getD [])) 32,
    clamp_text (pyStrip (cF.getD [])) 5000, ts⟩

/-- State change of a successful `create_thread`. -/
def insertThreadWithPost (db : DB) (th : Thread) (p : Post) (ts : Nat) : DB :=
  { db with
      threads := (db.threads ++ [th]).map (fun t =>
        if t.id = db.nextThreadId then
          { t with posts_count := t.posts_count + 1, last_activity_at := ts }
        else t),
      nextThreadId := db.nextThreadId + 1,
      posts := db.posts ++ [p],
      nextPostId := db.nextPostId + 1 }

/-- The comment row `comment` inserts. -/
def newComment (db : DB) (pid : Nat) (aF cF : Option Str) (ts : Nat) : Comment :=
  ⟨db.nextCommentId, pid,
    clamp_text (if pyStrip (aF.getD []) = [] then anonName
      else pyStrip (aF.getD [])) 32,
    clamp_text (pyStrip (cF.getD [])) 2000, ts⟩

/-- State change of a successful `comment`: insert the comment and bump
only the owning thread's `last_activity_at`. -/
def insertCommentBump (db : DB) (c : Comment) (thid ts : Nat) : DB :=
  { db with
      comments := db.comments ++ [c],
      nextCommentId := db.nextCommentId + 1,
      threads := db.threads.map (fun t =>
        if t.id = thid then { t with last_activity_at := ts } else t) }

theorem reply_not_found (db : DB) (tid : Nat) (aF cF : Option Str) (ts : Nat)
    (h : ∀ t ∈ db.threads, t.id ≠ tid) :
    reply db tid aF cF ts = (Resp.err 404, db) := by
  unfold reply
  rw [if_neg]
  simp only [List.any_eq_true, beq_iff_eq]
  rintro ⟨t, ht, hid⟩
  exact h t ht hid

theorem reply_empty_content (db : DB) (tid : Nat) (aF cF : Option Str) (ts : Nat)
    (hex : ∃ t ∈ db.threads, t.id = tid) (hc : pyStrip (cF.getD []) = []) :
    reply db tid aF cF ts = (Resp.err 400, db) := by
  unfold reply
  rw [if_pos (by simp only [List.any_eq_true, beq_iff_eq]; exact hex)]
  simp only [hc, reduceIte]

theorem reply_success (db : DB) (tid : Nat) (aF cF : Option Str) (ts : Nat)
    (hex : ∃ t ∈ db.threads, t.id = tid) (hc : pyStrip (cF.getD []) ≠ []) :
    reply db tid aF cF ts =
      (Resp.redirect tid, insertPostBump db (replyPost db tid aF cF ts) tid ts) := by
  unfold reply insertPostBump replyPost
  rw [if_pos (by simp only [List.any_eq_true, beq_iff_eq]; exact hex)]
  simp only [hc, reduceIte]

theorem comment_not_found (db : DB) (pid : Nat) (aF cF : Option Str) (ts : Nat)
    (h : db.posts.find? (fun p => p.id == pid) = none) :
    comment db pid aF cF ts = (Resp.err 404, db) := by
  unfold comment
  rw [h]

theorem comment_empty_content (db : DB) (pid : Nat) (aF cF : Option Str)
    (ts : Nat) (post : Post)
    (hpost : db.posts.find? (fun p => p.id == pid) = some post)
    (hc : pyStrip (cF.getD []) = []) :
    comment db pid aF cF ts = (Resp.err 400, db) := by
  unfold comment
  rw [hpost]
  simp only [hc, reduceIte]

theorem comment_success (db : DB) (pid : Nat) (aF cF : Option Str) (ts : Nat)
    (post : Post)
    (hpost : db.posts.find? (fun p => p.id == pid) = some post)
    (hc : pyStrip (cF.getD []) ≠ []) :
    comment db pid aF cF ts =
      (Resp.redirect post.thread_id,
        insertCommentBump db (newComment db pid aF cF ts) post.thread_id ts) := by
  unfold comment insertCommentBump newComment
  rw [hpost]
  simp only [hc, reduceIte]

theorem create_thread_invalid (db : DB)
    (titleF authorF contentF catF : Option Str) (ts : Nat)
    (h : pyStrip (titleF.getD []) = [] ∨ pyStrip (contentF.getD []) = []) :
    create_thread db titleF authorF contentF catF ts = (Resp.err 400, db) := by
  unfold create_thread
  simp only [h, reduceIte, if_pos]

theorem create_thread_no_category (db : DB)
    (titleF authorF contentF catF : Option Str) (ts : Nat)
    (hv : ¬ (pyStrip (titleF.getD []) = [] ∨ pyStrip (contentF.getD []) = []))
    (hcat : resolvedCategory db catF = none) :
    create_thread db titleF authorF contentF catF ts = (Resp.err 400, db) := by
  unfold create_thread
  rw [if_neg hv, hcat]

theorem create_thread_success (db : DB)
    (titleF authorF contentF catF : Option Str) (ts : Nat) (cat : Category)
    (hv : ¬ (pyStrip (titleF.getD []) = [] ∨ pyStrip (contentF.getD []) = []))
    (hcat : resolvedCategory db catF = some cat) :
    create_thread db titleF authorF contentF catF ts =
      (Resp.redirect db.nextThreadId,
        insertThreadWithPost db (newThread db titleF cat.id ts)
          (firstPost db authorF contentF ts) ts) := by
  unfold create_thread insertThreadWithPost newThread firstPost
  rw [if_neg hv, hcat]

/-! #### Invariant preservation -/

/-- Appending a post for another thread does not change a thread's post
list. -/
theorem filter_append_other (posts : List Post) (p : Post) (x : Nat)
    (h : p.thread_id ≠ x) :
    (posts ++ [p]).filter (fun q => q.thread_id == x) =
      posts.filter (fun q => q.thread_id == x) := by
  rw [List.filter_append]
  have hb : (p.thread_id == x) = false := by simp [h]
  simp [List.filter, hb]

/-- Appending a post for this thread appends it to the thread's post
list. -/
theorem filter_append_same (posts : List Post) (p : Post) (x : Nat)
    (h : p.thread_id = x) :
    (posts ++ [p]).filter (fun q => q.thread_id == x) =
      posts.filter (fun q => q.thread_id == x) ++ [p] := by
  rw [List.filter_append]
  have hb : (p.thread_id == x) = true := by simp [h]
  simp [List.filter, hb]

/-- A comment list filtered over a post list extended with a post no
comment refers to is unchanged. -/
theorem comments_filter_fresh_post (comments : List Comment)
    (posts : List Post) (p : Post)
    (hfresh : ∀ c ∈ comments, c.post_id ≠ p.id) :
    comments.filter (fun c => (posts ++ [p]).any (fun q => q.id == c.post_id)) =
      comments.filter (fun c => posts.any (fun q => q.id == c.post_id)) := by
  apply List.filter_congr
  intro c hc
  rw [List.any_append]
  have hb : (p.id == c.post_id) = false := by
    simp only [beq_eq_false_iff_ne, ne_eq]
    exact fun he => hfresh c hc he.symm
  simp [List.any, hb]

/-- Timestamps recorded for a thread are bounded by `ts` when the whole
database is. -/
theorem activity_le (db : DB) (x : Nat) (ts : Nat)
    (hts2 : ∀ p ∈ db.posts, p.created_at ≤ ts)
    (hts3 : ∀ c ∈ db.comments, c.created_at ≤ ts) :
    listMax ((postsOf db x).map Post.created_at) ≤ ts ∧
      listMax ((commentsOfThread db x).map Comment.created_at) ≤ ts := by
  constructor
  · apply listMax_le
    intro y hy
    simp only [List.mem_map] at hy
    obtain ⟨p, hp, rfl⟩ := hy
    exact hts2 p (List.mem_of_mem_filter hp)
  · apply listMax_le
    intro y hy
    simp only [List.mem_map] at hy
    obtain ⟨cm, hcm, rfl⟩ := hy
    exact hts3 cm (List.mem_of_mem_filter hcm)

/-- Inserting a post and bumping its thread preserves well-formedness and
both invariants, whenever the target thread exists, the post's fields come
from the current AUTOINCREMENT state, and the clock is sane. -/
theorem insertPostBump_step (db : DB) (p : Post) (tid ts : Nat)
    (hp1 : p.thread_id = tid) (hp2 : p.id = db.nextPostId)
    (hp3 : p.created_at = ts)
    (hex : ∃ t ∈ db.threads, t.id = tid)
    (hwf : WF db) (hinv : Inv db) (hts : tsOk db ts) :
    WF (insertPostBump db p tid ts) ∧ Inv (insertPostBump db p tid ts) := by
  obtain ⟨hwf1, hwf2, hwf3, hwf4, hwf5⟩ := hwf
  obtain ⟨hts1, hts2, hts3⟩ := hts
  obtain ⟨t0, ht0, ht0id⟩ := hex
  have hfresh : ∀ c ∈ db.comments, c.post_id ≠ p.id := by
    rw [hp2]
    exact fun c hcm => Nat.ne_of_lt (hwf5 c hcm)
  have hposts : ∀ x, postsOf (insertPostBump db p tid ts) x
      = (db.posts ++ [p]).filter (fun q => q.thread_id == x) := fun _ => rfl
  have hcomm : ∀ x, commentsOfThread (insertPostBump db p tid ts) x
      = db.comments.filter (fun c =>
          ((db.posts ++ [p]).filter (fun q => q.thread_id == x)).any
            (fun q => q.id == c.post_id)) := fun _ => rfl
  constructor
  · refine ⟨?_, ?_, ?_, ?_, ?_⟩
    · intro t ht
      simp only [insertPostBump, List.mem_map] at ht
      obtain ⟨u, hu, rfl⟩ := ht
      by_cases hid : u.id = tid
      · rw [if_pos hid]
        exact hwf1 u hu
      · rw [if_neg hid]
        exact hwf1 u hu
    · show ((db.threads.map _).Pairwise _)
      rw [List.pairwise_map]
      apply List.Pairwise.imp_of_mem ?_ hwf2
      intro a b ha hb hab
      by_cases h1 : a.id = tid <;> by_cases h2 : b.id = tid
      · exact absurd (h1.trans h2.symm) hab
      · rw [if_pos h1, if_neg h2]
        exact hab
      · rw [if_neg h1, if_pos h2]
        exact hab
      · rw [if_neg h1, if_neg h2]
        exact hab
    · intro q hq
      rcases List.mem_append.1 hq with h | h
      · exact ⟨Nat.lt_succ_of_lt (hwf3 q h).1, (hwf3 q h).2⟩
      · rcases List.mem_singleton.1 h with rfl
        refine ⟨by rw [hp2]; exact Nat.lt_succ_self _, ?_⟩
        rw [hp1]
        exact ht0id ▸ hwf1 t0 ht0
    · show ((db.posts ++ [p]).Pairwise _)
      rw [List.pairwise_append]
      refine ⟨hwf4, List.pairwise_singleton _ _, ?_⟩
      intro q hq r hr
      rcases List.mem_singleton.1 hr with rfl
      rw [hp2]
      exact Nat.ne_of_lt (hwf3 q hq).1
    · intro c hcm
      exact Nat.lt_succ_of_lt (hwf5 c hcm)
  · intro t ht
    simp only [insertPostBump, List.mem_map] at ht
    obtain ⟨u, hu, rfl⟩ := ht
    by_cases hid : u.id = tid
    · rw [if_pos hid]
      refine ⟨?_, ?_⟩
      · show u.posts_count + 1
          = (postsOf (insertPostBump db p tid ts) u.id).length
        rw [hposts, hid, filter_append_same _ _ _ hp1]
        have h1 := (hinv u hu).1
        unfold postsOf at h1
        rw [hid] at h1
        simp only [List.length_append, List.length_singleton]
        omega
      · show ts = listMax (activityTimes (insertPostBump db p tid ts) u.id)
        unfold activityTimes
        rw [hposts, hcomm, hid, filter_append_same _ _ _ hp1]
        rw [comments_filter_fresh_post db.comments _ _ hfresh]
        rw [List.map_append, List.map_singleton, List.append_assoc]
        rw [listMax_append, listMax_append, listMax_cons, hp3]
        have hb := activity_le db tid ts hts2 hts3
        unfold commentsOfThread postsOf at hb
        have hz : listMax ([] : List Nat) = 0 := rfl
        omega
    · rw [if_neg hid]
      have hne : p.thread_id ≠ u.id := by
        rw [hp1]
        exact fun he => hid he.symm
      refine ⟨?_, ?_⟩
      · show u.posts_count = (postsOf (insertPostBump db p tid ts) u.id).length
        rw [hposts, filter_append_other _ _ _ hne]
        exact (hinv u hu).1
      · show u.last_activity_at
          = listMax (activityTimes (insertPostBump db p tid ts) u.id)
        unfold activityTimes
        rw [hposts, hcomm, filter_append_other _ _ _ hne]
        exact (hinv u hu).2

theorem filter_singleton_true {α : Type} (f : α → Bool) (a : α) (h : f a = true) :
    List.filter f [a] = [a] := by
  simp [List.filter, h]

theorem filter_singleton_false {α : Type} (f : α → Bool) (a : α) (h : f a = false) :
    List.filter f [a] = [] := by
  simp [List.filter, h]

/-- Inserting a comment on an existing post and bumping only the owning
thread's activity preserves well-formedness and both invariants. -/
theorem insertCommentBump_step (db : DB) (c : Comment) (post : Post) (ts : Nat)
    (hpostmem : post ∈ db.posts) (hc1 : c.post_id = post.id)
    (hc3 : c.created_at = ts)
    (hwf : WF db) (hinv : Inv db) (hts : tsOk db ts) :
    WF (insertCommentBump db c post.thread_id ts) ∧
      Inv (insertCommentBump db c post.thread_id ts) := by
  obtain ⟨hwf1, hwf2, hwf3, hwf4, hwf5⟩ := hwf
  obtain ⟨hts1, hts2, hts3⟩ := hts
  have hposts : ∀ x, postsOf (insertCommentBump db c post.thread_id ts) x
      = db.posts.filter (fun q => q.thread_id == x) := fun _ => rfl
  have hcomm : ∀ x, commentsOfThread (insertCommentBump db c post.thread_id ts) x
      = (db.comments ++ [c]).filter (fun cm =>
          (db.posts.filter (fun q => q.thread_id == x)).any
            (fun q => q.id == cm.post_id)) := fun _ => rfl
  constructor
  · refine ⟨?_, ?_, ?_, hwf4, ?_⟩
    · intro t ht
      simp only [insertCommentBump, List.mem_map] at ht
      obtain ⟨u, hu, rfl⟩ := ht
      by_cases hid : u.id = post.thread_id
      · rw [if_pos hid]
        exact hwf1 u hu
      · rw [if_neg hid]
        exact hwf1 u hu
    · show ((db.threads.map _).Pairwise _)
      rw [List.pairwise_map]
      apply List.Pairwise.imp_of_mem ?_ hwf2
      intro a b ha hb hab
      by_cases h1 : a.id = post.thread_id <;> by_cases h2 : b.id = post.thread_id
      · exact absurd (h1.trans h2.symm) hab
      · rw [if_pos h1, if_neg h2]
        exact hab
      · rw [if_neg h1, if_pos h2]
        exact hab
      · rw [if_neg h1, if_neg h2]
        exact hab
    · exact hwf3
    · intro cm hcm
      rcases List.mem_append.1 hcm with h | h
      · exact hwf5 cm h
      · rcases List.mem_singleton.1 h with rfl
        rw [hc1]
        exact (hwf3 post hpostmem).1
  · intro t ht
    simp only [insertCommentBump, List.mem_map] at ht
    obtain ⟨u, hu, rfl⟩ := ht
    by_cases hid : u.id = post.thread_id
    · rw [if_pos hid]
      refine ⟨?_, ?_⟩
      · show u.posts_count
          = (postsOf (insertCommentBump db c post.thread_id ts) u.id).length
        rw [hposts]
        exact (hinv u hu).1
      · show ts = listMax
          (activityTimes (insertCommentBump db c post.thread_id ts) u.id)
        unfold activityTimes
        rw [hposts, hcomm, List.filter_append]
        have hkeep : List.filter (fun cm =>
            (List.filter (fun q => q.thread_id == u.id) db.posts).any
              fun q => q.id == cm.post_id) [c] = [c] :=
          filter_singleton_true _ c (List.any_eq_true.2
            ⟨post, List.mem_filter.2 ⟨hpostmem, by simp [hid]⟩, by simp [hc1]⟩)
        rw [hkeep]
        rw [List.map_append, List.map_singleton, listMax_append, listMax_append,
          listMax_cons, hc3]
        have hb := activity_le db u.id ts hts2 hts3
        unfold commentsOfThread postsOf at hb
        have hz : listMax ([] : List Nat) = 0 := rfl
        omega
    · rw [if_neg hid]
      have hdrop : ((db.posts.filter (fun q => q.thread_id == u.id)).any
          (fun q => q.id == c.post_id)) = false := by
        rw [List.any_eq_false]
        intro q hq
        simp only [beq_iff_eq]
        intro he
        have hqp : q = post := eq_of_mem_of_pairwise_ne Post.id hwf4
          (List.mem_of_mem_filter hq) hpostmem (by rw [he, hc1])
        have hqt : q.thread_id = u.id := by
          have := (List.mem_filter.1 hq).2
          simpa using this
        exact hid (by rw [← hqt, hqp])
      refine ⟨?_, ?_⟩
      · show u.posts_count
          = (postsOf (insertCommentBump db c post.thread_id ts) u.id).length
        rw [hposts]
        exact (hinv u hu).1
      · show u.last_activity_at = listMax
          (activityTimes (insertCommentBump db c post.thread_id ts) u.id)
        unfold activityTimes
        have hgone : List.filter (fun cm =>
            (List.filter (fun q => q.thread_id == u.id) db.posts).any
              fun q => q.id == cm.post_id) [c] = [] :=
          filter_singleton_false _ c hdrop
        rw [hposts, hcomm, List.filter_append, hgone, List.append_nil]
        exact (hinv u hu).2

/-- Inserting a fresh thread together with its first post preserves
well-formedness and both invariants. -/
theorem insertThreadWithPost_step (db : DB) (th : Thread) (p : Post) (ts : Nat)
    (hth1 : th.id = db.nextThreadId) (hth2 : th.posts_count = 0)
    (hp1 : p.thread_id = db.nextThreadId) (hp2 : p.id = db.nextPostId)
    (hp3 : p.created_at = ts)
    (hwf : WF db) (hinv : Inv db) (hts : tsOk db ts) :
    WF (insertThreadWithPost db th p ts) ∧ Inv (insertThreadWithPost db th p ts) := by
  obtain ⟨hwf1, hwf2, hwf3, hwf4, hwf5⟩ := hwf
  obtain ⟨hts1, hts2, hts3⟩ := hts
  have hfold : ∀ u ∈ db.threads,
      (if u.id = db.nextThreadId then
        { u with posts_count := u.posts_count + 1, last_activity_at := ts }
      else u) = u :=
    fun u hu => if_neg (Nat.ne_of_lt (hwf1 u hu))
  have hthreads : (insertThreadWithPost db th p ts).threads
      = db.threads ++
        [{ th with posts_count := th.posts_count + 1, last_activity_at := ts }] := by
    show (db.threads ++ [th]).map _ = _
    rw [List.map_append, List.map_singleton, if_pos hth1]
    congr 1
    calc db.threads.map _ = db.threads.map id := List.map_congr_left hfold
    _ = db.threads := List.map_id db.threads
  have hposts : ∀ x, postsOf (insertThreadWithPost db th p ts) x
      = (db.posts ++ [p]).filter (fun q => q.thread_id == x) := fun _ => rfl
  have hcomm : ∀ x, commentsOfThread (insertThreadWithPost db th p ts) x
      = db.comments.filter (fun cm =>
          ((db.posts ++ [p]).filter (fun q => q.thread_id == x)).any
            (fun q => q.id == cm.post_id)) := fun _ => rfl
  have hfresh : ∀ cm ∈ db.comments, cm.post_id ≠ p.id := by
    rw [hp2]
    exact fun cm hcm => Nat.ne_of_lt (hwf5 cm hcm)
  have hnewposts : (db.posts ++ [p]).filter
      (fun q => q.thread_id == db.nextThreadId) = [p] := by
    rw [filter_append_same _ _ _ hp1]
    have hnil : db.posts.filter (fun q => q.thread_id == db.nextThreadId) = [] := by
      rw [List.filter_eq_nil_iff]
      intro q hq
      simp only [beq_iff_eq]
      exact Nat.ne_of_lt (hwf3 q hq).2
    rw [hnil, List.nil_append]
  constructor
  · refine ⟨?_, ?_, ?_, ?_, ?_⟩
    · intro t ht
      rw [hthreads] at ht
      rcases List.mem_append.1 ht with h | h
      · show t.id < db.nextThreadId + 1
        exact Nat.lt_succ_of_lt (hwf1 t h)
      · rcases List.mem_singleton.1 h with rfl
        show th.id < db.nextThreadId + 1
        rw [hth1]
        exact Nat.lt_succ_self _
    · show ((insertThreadWithPost db th p ts).threads.Pairwise _)
      rw [hthreads, List.pairwise_append]
      refine ⟨hwf2, List.pairwise_singleton _ _, ?_⟩
      intro a ha b hb
      rcases List.mem_singleton.1 hb with rfl
      show a.id ≠ th.id
      rw [hth1]
      exact Nat.ne_of_lt (hwf1 a ha)
    · intro q hq
      rcases List.mem_append.1 hq with h | h
      · exact ⟨Nat.lt_succ_of_lt (hwf3 q h).1, Nat.lt_succ_of_lt (hwf3 q h).2⟩
      · rcases List.mem_singleton.1 h with rfl
        refine ⟨by rw [hp2]; exact Nat.lt_succ_self _,
          by rw [hp1]; exact Nat.lt_succ_self _⟩
    · show ((db.posts ++ [p]).Pairwise _)
      rw [List.pairwise_append]
      refine ⟨hwf4, List.pairwise_singleton _ _, ?_⟩
      intro q hq r hr
      rcases List.mem_singleton.1 hr with rfl
      rw [hp2]
      exact Nat.ne_of_lt (hwf3 q hq).1
    · intro cm hcm
      exact Nat.lt_succ_of_lt (hwf5 cm hcm)
  · intro t ht
    rw [hthreads] at ht
    rcases List.mem_append.1 ht with h | h
    · have hne : p.thread_id ≠ t.id := by
        rw [hp1]
        exact fun he => Nat.ne_of_lt (hwf1 t h) he.symm
      refine ⟨?_, ?_⟩
      · show t.posts_count = (postsOf (insertThreadWithPost db th p ts) t.id).length
        rw [hposts, filter_append_other _ _ _ hne]
        exact (hinv t h).1
      · show t.last_activity_at
          = listMax (activityTimes (insertThreadWithPost db th p ts) t.id)
        unfold activityTimes
        rw [hposts, hcomm, filter_append_other _ _ _ hne]
        exact (hinv t h).2
    · rcases List.mem_singleton.1 h with rfl
      refine ⟨?_, ?_⟩
      · show th.posts_count + 1
          = (postsOf (insertThreadWithPost db th p ts) th.id).length
        rw [hposts, hth1, hnewposts, hth2]
        rfl
      · show ts = listMax (activityTimes (insertThreadWithPost db th p ts) th.id)
        unfold activityTimes
        rw [hposts, hcomm, hth1, hnewposts]
        have hdrop : db.comments.filter
            (fun cm => List.any [p] (fun q => q.id == cm.post_id)) = [] := by
          rw [List.filter_eq_nil_iff]
          intro cm hcm
          simp only [List.any_cons, List.any_nil, Bool.or_false, beq_iff_eq]
          exact fun he => hfresh cm hcm he.symm
        rw [hdrop]
        simp only [List.map_singleton, List.map_nil, List.append_nil]
        rw [listMax_cons, hp3]
        have hz : listMax ([] : List Nat) = 0 := rfl
        omega

/-- One request-level operation preserves well-formedness and the
invariants (failed requests leave the state untouched). -/
theorem applyOp_step (db : DB) (op : Op) (hwf : WF db) (hinv : Inv db)
    (hts : tsOk db op.ts) :
    WF (applyOp db op) ∧ Inv (applyOp db op) := by
  cases op with
  | createThread a b cF d ts =>
    show WF (create_thread db a b cF d ts).2 ∧ Inv (create_thread db a b cF d ts).2
    by_cases hv : pyStrip (a.getD []) = [] ∨ pyStrip (cF.getD []) = []
    · rw [create_thread_invalid db a b cF d ts hv]
      exact ⟨hwf, hinv⟩
    · cases hcat : resolvedCategory db d with
      | none =>
        rw [create_thread_no_category db a b cF d ts hv hcat]
        exact ⟨hwf, hinv⟩
      | some cat =>
        rw [create_thread_success db a b cF d ts cat hv hcat]
        exact insertThreadWithPost_step db _ _ ts rfl rfl rfl rfl rfl hwf hinv hts
  | addReply tid aF cF ts =>
    show WF (reply db tid aF cF ts).2 ∧ Inv (reply db tid aF cF ts).2
    by_cases hex : ∃ t ∈ db.threads, t.id = tid
    · by_cases hc : pyStrip (cF.getD []) = []
      · rw [reply_empty_content db tid aF cF ts hex hc]
        exact ⟨hwf, hinv⟩
      · rw [reply_success db tid aF cF ts hex hc]
        exact insertPostBump_step db _ tid ts rfl rfl rfl hex hwf hinv hts
    · push_neg at hex
      rw [reply_not_found db tid aF cF ts hex]
      exact ⟨hwf, hinv⟩
  | addComment pid aF cF ts =>
    show WF (comment db pid aF cF ts).2 ∧ Inv (comment db pid aF cF ts).2
    cases hfind : db.posts.find? (fun p => p.id == pid) with
    | none =>
      rw [comment_not_found db pid aF cF ts hfind]
      exact ⟨hwf, hinv⟩
    | some post =>
      by_cases hc : pyStrip (cF.getD []) = []
      · rw [comment_empty_content db pid aF cF ts post hfind hc]
        exact ⟨hwf, hinv⟩
      · rw [comment_success db pid aF cF ts post hfind hc]
        have hmem : post ∈ db.posts := List.mem_of_find?_eq_some hfind
        have hpid : post.id = pid := by
          have := List.find?_some hfind
          simpa using this
        exact insertCommentBump_step db _ post ts hmem hpid.symm rfl hwf hinv hts

/-- Sequences of operations preserve well-formedness and the invariants. -/
theorem applyOps_inv (ops : List Op) (db : DB) (hwf : WF db) (hinv : Inv db)
    (hsteps : StepsOk db ops) :
    WF (applyOps db ops) ∧ Inv (applyOps db ops) := by
  induction ops generalizing db with
  | nil => exact ⟨hwf, hinv⟩
  | cons op rest ih =>
    obtain ⟨hts, hrest⟩ := hsteps
    obtain ⟨hwf1, hinv1⟩ := applyOp_step db op hwf hinv hts
    exact ih (applyOp db op) hwf1 hinv1 hrest

/-- A prefix of a sane run is a sane run. -/
theorem StepsOk_append_left (db : DB) (l1 l2 : List Op) (h : StepsOk db (l1 ++ l2)) :
    StepsOk db l1 := by
  induction l1 generalizing db with
  | nil => trivial
  | cons op rest ih =>
    obtain ⟨hts, hrest⟩ := h
    exact ⟨hts, ih (applyOp db op) hrest⟩

/-- C3: starting from any well-formed state satisfying the invariants (in
particular the empty database), after each completed `createThread`,
`addReply` or `addComment` of a run with a sane clock, every thread's
`posts_count` equals its number of Post rows and its `last_activity_at`
equals the maximum `created_at` over its posts and the comments on them. -/
theorem thread_counters_spec (db : DB) (ops : List Op)
    (hwf : WF db) (hinv : Inv db) (hsteps : StepsOk db ops) :
    ∀ pre, pre <+: ops →
      ∀ t ∈ (applyOps db pre).threads,
        t.posts_count = (postsOf (applyOps db pre) t.id).length ∧
        t.last_activity_at = listMax (activityTimes (applyOps db pre) t.id) := by
  rintro pre ⟨suf, rfl⟩
  exact (applyOps_inv pre db hwf hinv (StepsOk_append_left db pre suf hsteps)).2

instance (db : DB) (ts : Nat) : Decidable (tsOk db ts) := by
  unfold tsOk
  infer_instance

instance (db : DB) : Decidable (WF db) := by
  unfold WF
  infer_instance

instance (db : DB) : Decidable (Inv db) := by
  unfold Inv
  infer_instance

instance StepsOk.instDec : (db : DB) → (ops : List Op) → Decidable (StepsOk db ops)
  | _, [] => .isTrue trivial
  | db, op :: rest =>
    have : Decidable (StepsOk (applyOp db op) rest) := StepsOk.instDec _ _
    by unfold StepsOk; infer_instance

/-- The freshly created database file. -/
def emptyDB : DB := ⟨false, false, [], 1, [], 1, [], 1, [], 1⟩

/-- A small concrete run: create a thread, reply to it, comment on its
first post. -/
def demoOps : List Op :=
  [Op.createThread (some ['h', 'i']) none (some ['y', 'o']) none 5,
   Op.addReply 1 none (some ['r', 'e']) 6,
   Op.addComment 1 none (some ['c', 'm']) 7]

/-- Witness for `thread_counters_spec` on a concrete three-operation run
against the seeded database. -/
theorem thread_counters_spec_witness :
    (applyOps (init_db emptyDB) demoOps).threads.all (fun t =>
      t.posts_count == (postsOf (applyOps (init_db emptyDB) demoOps) t.id).length &&
      t.last_activity_at
        == listMax (activityTimes (applyOps (init_db emptyDB) demoOps) t.id)) = true := by
  have h := thread_counters_spec (init_db emptyDB) demoOps (by decide) (by decide)
    (by decide) demoOps ⟨[], List.append_nil _⟩
  rw [List.all_eq_true]
  intro t ht
  have h2 := h t ht
  rw [Bool.and_eq_true, beq_iff_eq, beq_iff_eq]
  exact ⟨h2.1, h2.2⟩

/-- C8: `addReply` on a missing thread and `addComment` on a missing post
answer 404 and leave the database unchanged; when the parent row exists,
no 404 is produced. -/
theorem missing_parent_spec (db : DB) (tid pid : Nat)
    (aF cF aF2 cF2 : Option Str) (ts ts2 : Nat) :
    ((∀ t ∈ db.threads, t.id ≠ tid) →
      reply db tid aF cF ts = (Resp.err 404, db)) ∧
    ((∃ t ∈ db.threads, t.id = tid) →
      (reply db tid aF cF ts).1 ≠ Resp.err 404) ∧
    ((∀ p ∈ db.posts, p.id ≠ pid) →
      comment db pid aF2 cF2 ts2 = (Resp.err 404, db)) ∧
    ((∃ p ∈ db.posts, p.id = pid) →
      (comment db pid aF2 cF2 ts2).1 ≠ Resp.err 404) := by
  refine ⟨reply_not_found db tid aF cF ts, ?_, ?_, ?_⟩
  · intro hex
    by_cases hc : pyStrip (cF.getD []) = []
    · rw [reply_empty_content db tid aF cF ts hex hc]
      simp
    · rw [reply_success db tid aF cF ts hex hc]
      simp
  · intro h
    apply comment_not_found
    rw [List.find?_eq_none]
    intro p hp
    simp only [beq_iff_eq]
    exact h p hp
  · intro hex
    have hsome : (db.posts.find? (fun p => p.id == pid)).isSome := by
      rw [List.find?_isSome]
      obtain ⟨p, hp, hpe⟩ := hex
      exact ⟨p, hp, by simp [hpe]⟩
    obtain ⟨post, hfind⟩ := Option.isSome_iff_exists.1 hsome
    by_cases hc : pyStrip (cF2.getD []) = []
    · rw [comment_empty_content db pid aF2 cF2 ts2 post hfind hc]
      simp
    · rw [comment_success db pid aF2 cF2 ts2 post hfind hc]
      simp

/-- Witness for `missing_parent_spec`: against the seeded empty forum, a
reply to thread 1 is a 404 that changes nothing, and after `demoOps`
thread 1 exists so a reply to it is not a 404. -/
theorem missing_parent_spec_witness :
    reply (init_db emptyDB) 1 none (some ['x']) 9
        = (Resp.err 404, init_db emptyDB) ∧
      (reply (applyOps (init_db emptyDB) demoOps) 1 none (some ['x']) 9).1
        ≠ Resp.err 404 := by
  constructor
  · exact (missing_parent_spec (init_db emptyDB) 1 1 none (some ['x']) none none
      9 9).1 (by decide)
  · exact (missing_parent_spec (applyOps (init_db emptyDB) demoOps) 1 1 none
      (some ['x']) none none 9 9).2.1 (by decide)

/-! #### `init_db` idempotence (claim C5) and category resolution (C6) -/

/-- Closed form of `init_db`. -/
theorem init_db_eq (db : DB) : init_db db =
    { db with
        tablesCreated := true,
        hasCategoryIdCol := true,
        categories :=
          if db.categories.length = 0 then
            db.categories ++ defaultCategories db.nextCategoryId
          else db.categories,
        nextCategoryId :=
          if db.categories.length = 0 then db.nextCategoryId + 4
          else db.nextCategoryId,
        threads := backfillThreads
          (if db.categories.length = 0 then
            db.categories ++ defaultCategories db.nextCategoryId
          else db.categories) db.threads } := by
  unfold init_db
  by_cases hcol : db.hasCategoryIdCol <;>
    by_cases hcats : db.categories.length = 0 <;>
      simp [hcol, hcats]

/-- The backfill is idempotent. -/
theorem backfill_idem (cats : List Category) (threads : List Thread) :
    backfillThreads cats (backfillThreads cats threads)
      = backfillThreads cats threads := by
  unfold backfillThreads
  cases h : lowestCategory cats with
  | none => rfl
  | some d =>
    dsimp only
    rw [List.map_map]
    apply List.map_congr_left
    intro t ht
    by_cases hc : t.category_id = none <;> simp [hc]

/-- C5: `init_db` run twice equals `init_db` run once (identical schema
flags, identical category rows, identical threads); the four default
categories are inserted exactly when the category table is empty and never
duplicated; and the `category_id` migration always leaves the column
present (the second run's introspection skips it). -/
theorem init_db_idempotent_spec (db : DB) :
    init_db (init_db db) = init_db db ∧
    (db.categories ≠ [] → (init_db db).categories = db.categories) ∧
    (db.categories = [] →
      (init_db db).categories = defaultCategories db.nextCategoryId) ∧
    (init_db db).hasCategoryIdCol = true := by
  refine ⟨?_, ?_, ?_, ?_⟩
  · rw [init_db_eq db, init_db_eq]
    dsimp only
    split_ifs with h1 h2
    · exfalso
      rw [List.length_append] at h2
      have h4 : (defaultCategories db.nextCategoryId).length = 4 := rfl
      omega
    · rw [backfill_idem]
    · rw [backfill_idem]
  · intro h
    rw [init_db_eq db]
    have h0 : ¬ db.categories.length = 0 :=
      fun h0 => h (List.length_eq_zero.1 h0)
    dsimp only
    rw [if_neg h0]
  · intro h
    rw [init_db_eq db]
    dsimp only
    rw [if_pos (by rw [h]; rfl), h, List.nil_append]
  · rw [init_db_eq db]

/-- Witness for `init_db_idempotent_spec` on the fresh database. -/
theorem init_db_idempotent_spec_witness :
    init_db (init_db emptyDB) = init_db emptyDB ∧
      (init_db emptyDB).categories = defaultCategories 1 := by
  have h := init_db_idempotent_spec emptyDB
  exact ⟨h.1, h.2.2.1 rfl⟩

/-- The function `lowestCategory` fails exactly on the empty table. -/
theorem lowestCategory_eq_none_iff (cats : List Category) :
    lowestCategory cats = none ↔ cats = [] := by
  cases cats with
  | nil => simp [lowestCategory]
  | cons c t =>
    unfold lowestCategory
    cases lowestCategory t with
    | none =>
      dsimp only
      simp
    | some d =>
      dsimp only
      simp

/-- The function `lowestCategory` really returns a member of lowest id. -/
theorem lowestCategory_min (cats : List Category) (cat : Category)
    (h : lowestCategory cats = some cat) :
    cat ∈ cats ∧ ∀ d ∈ cats, cat.id ≤ d.id := by
  induction cats generalizing cat with
  | nil => cases h
  | cons c t ih =>
    unfold lowestCategory at h
    cases ht : lowestCategory t with
    | none =>
      rw [ht] at h
      dsimp only at h
      obtain rfl := Option.some.inj h
      have hnil : t = [] := (lowestCategory_eq_none_iff t).1 ht
      subst hnil
      refine ⟨List.mem_singleton.2 rfl, ?_⟩
      intro d hd
      rcases List.mem_singleton.1 hd with rfl
      exact le_refl _
    | some d =>
      rw [ht] at h
      dsimp only at h
      have h2 := Option.some.inj h
      obtain ⟨hdm, hdmin⟩ := ih d ht
      by_cases hle : c.id ≤ d.id
      · rw [if_pos hle] at h2
        subst h2
        refine ⟨List.mem_cons_self _ _, ?_⟩
        intro e he
        rcases List.mem_cons.1 he with rfl | he'
        · exact le_refl _
        · exact le_trans hle (hdmin e he')
      · rw [if_neg hle] at h2
        subst h2
        refine ⟨List.mem_cons_of_mem _ hdm, ?_⟩
        intro e he
        rcases List.mem_cons.1 he with rfl | he'
        · omega
        · exact hdmin e he'

/-- C6: `create_thread` with a valid numeric `category_id` naming an
existing category files the new thread under it; with the field omitted,
non-numeric, or naming no category it falls back to the category with the
lowest id; and with no categories at all it aborts 400 and creates
nothing. -/
theorem create_thread_category_spec (db : DB)
    (titleF aF cF catF : Option Str) (ts : Nat)
    (hv : ¬ (pyStrip (titleF.getD []) = [] ∨ pyStrip (cF.getD []) = [])) :
    (∀ s cat, catF = some s → pyIsDigit s = true →
      findCategory db.categories (digitsToNat s) = some cat →
      create_thread db titleF aF cF catF ts
        = (Resp.redirect db.nextThreadId,
            insertThreadWithPost db (newThread db titleF cat.id ts)
              (firstPost db aF cF ts) ts)) ∧
    (∀ cat,
      (catF = none ∨ ∃ s, catF = some s ∧
        (pyIsDigit s = false ∨
          findCategory db.categories (digitsToNat s) = none)) →
      lowestCategory db.categories = some cat →
      create_thread db titleF aF cF catF ts
        = (Resp.redirect db.nextThreadId,
            insertThreadWithPost db (newThread db titleF cat.id ts)
              (firstPost db aF cF ts) ts)) ∧
    (∀ cat, lowestCategory db.categories = some cat →
      cat ∈ db.categories ∧ ∀ d ∈ db.categories, cat.id ≤ d.id) ∧
    (db.categories = [] →
      create_thread db titleF aF cF catF ts = (Resp.err 400, db)) := by
  refine ⟨?_, ?_, fun cat h => lowestCategory_min db.categories cat h, ?_⟩
  · intro s cat hs hdig hfind
    apply create_thread_success db titleF aF cF catF ts cat hv
    unfold resolvedCategory
    rw [hs]
    simp only [hdig, reduceIte, hfind]
  · intro cat hfall hlow
    apply create_thread_success db titleF aF cF catF ts cat hv
    unfold resolvedCategory
    rcases hfall with rfl | ⟨s, rfl, hbad⟩
    · simpa using hlow
    · rcases hbad with hdig | hfind
      · simp only [hdig]
        simpa using hlow
      · simp only [hfind]
        rcases hd : pyIsDigit s <;> simpa [hd] using hlow
  · intro hnil
    apply create_thread_no_category db titleF aF cF catF ts hv
    unfold resolvedCategory
    have hlow : lowestCategory db.categories = none :=
      (lowestCategory_eq_none_iff db.categories).2 hnil
    rcases catF with _ | s
    · simpa using hlow
    · rcases hd : pyIsDigit s
      · simpa [hd] using hlow
      · simp only [hd, reduceIte]
        rw [hnil]
        rfl

/-- Witness for `create_thread_category_spec`: an out-of-range category id
`99` falls back to the lowest-id seeded category (Technology, id 1). -/
theorem create_thread_category_spec_witness :
    (create_thread (init_db emptyDB) (some ['t']) none (some ['b'])
      (some ['9', '9']) 4).1 = Resp.redirect 1 := by
  have h := (create_thread_category_spec (init_db emptyDB) (some ['t']) none
    (some ['b']) (some ['9', '9']) 4 (by decide)).2.1
    ⟨1, ['t','e','c','h','n','o','l','o','g','y'],
      ['T','e','c','h','n','o','l','o','g','y']⟩
    (Or.inr ⟨['9', '9'], rfl, Or.inr (by decide)⟩) (by decide)
  rw [h]
  rfl

/-! ### Markdown rendering and sanitisation (claim C1)

`markdown_to_html` (src/app.py lines 503-526) pipes the Markdown source
through the third-party renderer markdown-it and the third-party sanitizer
bleach, neither of which is part of this repository.  Modelled from the
spec (§4.5): the renderer is an arbitrary function producing an HTML
fragment (a forest of elements and text nodes), and the sanitizer is an
allow-list tree filter - permitted tags `p br strong em code pre blockquote
ul ol li a h1..h6`, permitted attributes `href title rel` on `a` only,
permitted link protocols `http https mailto`, disallowed tags stripped with
their contents preserved - whose output is then serialised with all text
and attribute values HTML-escaped. -/

mutual
inductive Html where
  | text (s : Str)
  | elem (tag : Str) (attrs : List (Str × Str)) (children : HtmlList)
inductive HtmlList where
  | nil
  | cons (h : Html) (t : HtmlList)
end

/-- Concatenation of fragments. -/
def HtmlList.append : HtmlList → HtmlList → HtmlList
  | .nil, l => l
  | .cons h t, l => .cons h (t.append l)

/-- The allow-listed tags (src/app.py lines 508-511). -/
def allowedTags : List Str :=
  [['p'], ['b', 'r'], ['s', 't', 'r', 'o', 'n', 'g'], ['e', 'm'],
   ['c', 'o', 'd', 'e'], ['p', 'r', 'e'],
   ['b', 'l', 'o', 'c', 'k', 'q', 'u', 'o', 't', 'e'],
   ['u', 'l'], ['o', 'l'], ['l', 'i'], ['a'],
   ['h', '1'], ['h', '2'], ['h', '3'], ['h', '4'], ['h', '5'], ['h', '6']]

/-- The attribute name `"href"`. -/
def hrefName : Str := ['h', 'r', 'e', 'f']

/-- The attribute name `"title"`. -/
def titleName : Str := ['t', 'i', 't', 'l', 'e']

/-- The attribute name `"rel"`. -/
def relName : Str := ['r', 'e', 'l']

/-- Modelled from the spec: bleach's protocol check on `a@href` - a URL
with no scheme is relative and allowed, otherwise the scheme must be
`http`, `https` or `mailto`. -/
def protocolOk (v : Str) : Bool :=
  let pre := v.takeWhile (fun c => c ≠ ':')
  if pre.length = v.length then true
  else pre == ['h', 't', 't', 'p'] || pre == ['h', 't', 't', 'p', 's'] ||
    pre == ['m', 'a', 'i', 'l', 't', 'o']

/-- Modelled from the spec: the attribute allow-list
`{"a": ["href", "title", "rel"]}` with the protocol filter on `href`. -/
def keepAttr (tag : Str) (nv : Str × Str) : Bool :=
  tag == ['a'] &&
    (nv.1 == hrefName || nv.1 == titleName || nv.1 == relName) &&
    (!(nv.1 == hrefName) || protocolOk nv.2)

/-- Attribute filtering for one element. -/
def filterAttrs (tag : Str) (attrs : List (Str × Str)) : List (Str × Str) :=
  attrs.filter (keepAttr tag)

mutual
/-- Modelled from the spec: `bleach.clean(..., strip=True)` on one node -
an allow-listed element keeps its (filtered) attributes and sanitised
children, a disallowed element is stripped with its sanitised children
spliced in, text is kept. -/
def sanitizeHtml : Html → HtmlList
  | .text s => .cons (.text s) .nil
  | .elem tag attrs children =>
      if tag ∈ allowedTags then
        .cons (.elem tag (filterAttrs tag attrs) (sanitizeList children)) .nil
      else sanitizeList children
/-- Sanitisation of a whole fragment (`bleach.clean` over a forest). -/
def sanitizeList : HtmlList → HtmlList
  | .nil => .nil
  | .cons h t => (sanitizeHtml h).append (sanitizeList t)
end

/-- One text character, HTML-escaped as serialisers do. -/
def escTextChar (c : Char) : Str :=
  if c = '&' then ['&', 'a', 'm', 'p', ';']
  else if c = '<' then ['&', 'l', 't', ';']
  else if c = '>' then ['&', 'g', 't', ';']
  else if c = '"' then ['&', 'q', 'u', 'o', 't', ';']
  else [c]

/-- HTML-escaping of text and attribute values. -/
def escapeHtml (s : Str) : Str := s.flatMap escTextChar

/-- The ` name="value"` serialisation of an attribute list. -/
def serializeAttrs (attrs : List (Str × Str)) : Str :=
  attrs.flatMap (fun nv => ' ' :: nv.1 ++ '=' :: '"' :: escapeHtml nv.2 ++ ['"'])

mutual
/-- Serialisation of a node. -/
def serializeHtml : Html → Str
  | .text s => escapeHtml s
  | .elem tag attrs children =>
      (('<' :: tag) ++ serializeAttrs attrs ++ ['>'])
        ++ serializeList children
        ++ (('<' :: '/' :: tag) ++ ['>'])
/-- Serialisation of a fragment. -/
def serializeList : HtmlList → Str
  | .nil => []
  | .cons h t => serializeHtml h ++ serializeList t
end

/-- Embeds `markdown_to_html` (src/app.py lines 514-526) against an arbitrary
renderer: `text or ""`, render, sanitise, serialise. -/
def markdown_to_html (render : Str → HtmlList) (text : Option Str) : Str :=
  serializeList (sanitizeList (render (text.getD [])))

mutual
/-- Structural safety of a node: only allow-listed tags, only the three
`a` attributes, and only allowed protocols on `href`. -/
def GoodH : Html → Prop
  | .text _ => True
  | .elem tag attrs children =>
      tag ∈ allowedTags ∧
      (∀ nv ∈ attrs, tag = ['a'] ∧
        (nv.1 = hrefName ∨ nv.1 = titleName ∨ nv.1 = relName) ∧
        (nv.1 = hrefName → protocolOk nv.2 = true)) ∧
      GoodL children
/-- Structural safety of a fragment. -/
def GoodL : HtmlList → Prop
  | .nil => True
  | .cons h t => GoodH h ∧ GoodL t
end

theorem GoodL_append : (a b : HtmlList) → GoodL a → GoodL b →
    GoodL (a.append b)
  | .nil, _, _, hb => hb
  | .cons _h t, b, ha, hb => ⟨ha.1, GoodL_append t b ha.2 hb⟩

mutual
/-- The sanitizer only emits structurally safe nodes. -/
theorem sanitizeHtml_good (h : Html) : GoodL (sanitizeHtml h) :=
  match h with
  | .text s => ⟨trivial, trivial⟩
  | .elem tag attrs children => by
      unfold sanitizeHtml
      by_cases htag : tag ∈ allowedTags
      · rw [if_pos htag]
        refine ⟨⟨htag, ?_, sanitizeList_good children⟩, trivial⟩
        intro nv hnv
        have hk := (List.mem_filter.1 hnv).2
        unfold keepAttr at hk
        simp only [Bool.and_eq_true, Bool.or_eq_true, beq_iff_eq,
          Bool.not_eq_true'] at hk
        obtain ⟨⟨htag', hname⟩, hproto⟩ := hk
        refine ⟨htag', by tauto, ?_⟩
        intro hh
        rcases hproto with hne | hok
        · rw [hh] at hne
          simp at hne
        · exact hok
      · rw [if_neg htag]
        exact sanitizeList_good children
/-- The sanitizer only emits structurally safe fragments. -/
theorem sanitizeList_good (l : HtmlList) : GoodL (sanitizeList l) :=
  match l with
  | .nil => trivial
  | .cons h t =>
      GoodL_append _ _ (sanitizeHtml_good h) (sanitizeList_good t)
end

/-- Substring test: does `p` occur contiguously in the second argument? -/
def hasSub (p : Str) : Str → Bool
  | [] => p.isEmpty
  | c :: t => p.isPrefixOf (c :: t) || hasSub p t

/-- States of the scanner for the fragment `"<sc"`: nothing matched, `<`
matched, `<s` matched, or the fragment was seen (dead). -/
inductive ScState where
  | s0
  | s1
  | s2
  | dead
deriving DecidableEq

/-- One scanner step. -/
def scStep : ScState → Char → ScState
  | .dead, _ => .dead
  | _, '<' => .s1
  | .s1, 's' => .s2
  | .s2, 'c' => .dead
  | _, _ => .s0

/-- Run the scanner over a string. -/
def scRun (s : ScState) (l : Str) : ScState := l.foldl scStep s

theorem scRun_append (s : ScState) (a b : Str) :
    scRun s (a ++ b) = scRun (scRun s a) b := by
  simp [scRun]

theorem scRun_dead (l : Str) : scRun ScState.dead l = ScState.dead := by
  induction l with
  | nil => rfl
  | cons c t ih => simpa [scRun, List.foldl_cons, scStep] using ih

/-- If `"<sc"` occurs in `l`, the scanner dies on `l` from any state. -/
theorem scRun_dead_of_hasSub (l : Str) (h : hasSub ['<', 's', 'c'] l = true)
    (s : ScState) : scRun s l = ScState.dead := by
  induction l generalizing s with
  | nil => simp [hasSub, List.isEmpty] at h
  | cons c t ih =>
    unfold hasSub at h
    rw [Bool.or_eq_true] at h
    rcases h with h | h
    · have hp : (['<', 's', 'c'] : Str) <+: (c :: t) :=
        List.isPrefixOf_iff_prefix.1 h
      obtain ⟨u, hu⟩ := hp
      simp only [List.cons_append, List.nil_append, List.cons.injEq] at hu
      obtain ⟨hc, ht⟩ := hu
      subst hc
      subst ht
      show scRun (scStep (scStep (scStep s '<') 's') 'c') u = ScState.dead
      have h1 : scStep s '<' = ScState.s1 ∨ scStep s '<' = ScState.dead := by
        cases s <;> simp [scStep]
      rcases h1 with h1 | h1 <;> rw [h1] <;>
        simp [scStep, scRun_dead]
    · exact (ih h) (scStep s c)

/-- A `<`-free stretch keeps the scanner in its ground state. -/
theorem scRun_s0_no_lt (l : Str) (h : ∀ c ∈ l, c ≠ '<') :
    scRun ScState.s0 l = ScState.s0 := by
  induction l with
  | nil => rfl
  | cons c t ih =>
    have hc := h c (List.mem_cons_self c t)
    have hstep : scStep ScState.s0 c = ScState.s0 := by
      unfold scStep
      split <;> simp_all
    show scRun (scStep ScState.s0 c) t = ScState.s0
    rw [hstep]
    exact ih (fun d hd => h d (List.mem_cons_of_mem c hd))

theorem no_lt_escTextChar (a c : Char) (h : c ∈ escTextChar a) : c ≠ '<' := by
  intro he
  subst he
  unfold escTextChar at h
  by_cases h1 : a = '&'
  · rw [if_pos h1] at h
    exact absurd h (by decide)
  · rw [if_neg h1] at h
    by_cases h2 : a = '<'
    · rw [if_pos h2] at h
      exact absurd h (by decide)
    · rw [if_neg h2] at h
      by_cases h3 : a = '>'
      · rw [if_pos h3] at h
        exact absurd h (by decide)
      · rw [if_neg h3] at h
        by_cases h4 : a = '"'
        · rw [if_pos h4] at h
          exact absurd h (by decide)
        · rw [if_neg h4] at h
          exact h2 (List.mem_singleton.1 h).symm

theorem no_lt_escapeHtml (s : Str) (c : Char) (h : c ∈ escapeHtml s) :
    c ≠ '<' := by
  unfold escapeHtml at h
  rw [List.mem_flatMap] at h
  obtain ⟨a, _, ha⟩ := h
  exact no_lt_escTextChar a c ha

theorem no_lt_serializeAttrs (attrs : List (Str × Str))
    (hattr : ∀ nv ∈ attrs,
      nv.1 = hrefName ∨ nv.1 = titleName ∨ nv.1 = relName) :
    ∀ c ∈ serializeAttrs attrs, c ≠ '<' := by
  intro c hc he
  subst he
  unfold serializeAttrs at hc
  rw [List.mem_flatMap] at hc
  obtain ⟨nv, hnv, hcm⟩ := hc
  have hn := hattr nv hnv
  have hname : '<' ∉ nv.1 := by
    rcases hn with hn | hn | hn <;> rw [hn] <;> decide
  have hesc : '<' ∉ escapeHtml nv.2 :=
    fun hm => no_lt_escapeHtml nv.2 '<' hm rfl
  simp only [List.cons_append, List.mem_cons, List.mem_append,
    List.mem_singleton] at hcm
  have hchars : ¬ ('<' = ' ' ∨ '<' = '=' ∨ '<' = '"') := by decide
  tauto

/-- The scanner crosses every allow-listed tag name back to the ground
state, whether entered after `<` or from the ground state. -/
theorem allowedTags_run : ∀ t ∈ allowedTags,
    scRun ScState.s1 t = ScState.s0 ∧ scRun ScState.s0 t = ScState.s0 := by
  decide

mutual
/-- Serialising a structurally safe node never lets the scanner reach the
`"<sc"` state. -/
theorem scRun_serializeHtml (h : Html) (hg : GoodH h) :
    scRun ScState.s0 (serializeHtml h) = ScState.s0 :=
  match h, hg with
  | .text s, _ => scRun_s0_no_lt _ (fun c hc => no_lt_escapeHtml s c hc)
  | .elem tag attrs children, hg => by
      obtain ⟨htag, hattr, hch⟩ := hg
      show scRun ScState.s0
        ((('<' :: tag) ++ serializeAttrs attrs ++ ['>'])
          ++ serializeList children
          ++ (('<' :: '/' :: tag) ++ ['>'])) = ScState.s0
      rw [scRun_append ScState.s0
        ((('<' :: tag) ++ serializeAttrs attrs ++ ['>']) ++ serializeList children)
        (('<' :: '/' :: tag) ++ ['>'])]
      rw [scRun_append ScState.s0
        (('<' :: tag) ++ serializeAttrs attrs ++ ['>']) (serializeList children)]
      have hA : scRun ScState.s0
          (('<' :: tag) ++ serializeAttrs attrs ++ ['>']) = ScState.s0 := by
        rw [scRun_append ScState.s0 (('<' :: tag) ++ serializeAttrs attrs) ['>']]
        rw [scRun_append ScState.s0 ('<' :: tag) (serializeAttrs attrs)]
        have h1 : scRun ScState.s0 ('<' :: tag) = ScState.s0 := by
          show scRun (scStep ScState.s0 '<') tag = ScState.s0
          have he : scStep ScState.s0 '<' = ScState.s1 := rfl
          rw [he]
          exact (allowedTags_run tag htag).1
        rw [h1]
        have h2 : scRun ScState.s0 (serializeAttrs attrs) = ScState.s0 :=
          scRun_s0_no_lt _
            (no_lt_serializeAttrs attrs (fun nv hnv => (hattr nv hnv).2.1))
        rw [h2]
        rfl
      rw [hA]
      have hB := scRun_serializeList children hch
      rw [hB, scRun_append ScState.s0 ('<' :: '/' :: tag) ['>']]
      have hC : scRun ScState.s0 ('<' :: '/' :: tag) = ScState.s0 := by
        show scRun (scStep (scStep ScState.s0 '<') '/') tag = ScState.s0
        have he : scStep (scStep ScState.s0 '<') '/' = ScState.s0 := rfl
        rw [he]
        exact (allowedTags_run tag htag).2
      rw [hC]
      rfl
/-- Serialising a structurally safe fragment never lets the scanner reach
the `"<sc"` state. -/
theorem scRun_serializeList (l : HtmlList) (hg : GoodL l) :
    scRun ScState.s0 (serializeList l) = ScState.s0 :=
  match l, hg with
  | .nil, _ => rfl
  | .cons h t, hg => by
      show scRun ScState.s0 (serializeHtml h ++ serializeList t) = ScState.s0
      rw [scRun_append, scRun_serializeHtml h hg.1]
      exact scRun_serializeList t hg.2
end

/-- Occurrence is monotone under pattern prefixes. -/
theorem hasSub_mono (p q l : Str) (hpq : p <+: q)
    (h : hasSub q l = true) : hasSub p l = true := by
  induction l with
  | nil =>
    unfold hasSub at h ⊢
    rw [List.isEmpty_iff] at h ⊢
    subst h
    exact List.prefix_nil.1 hpq
  | cons c t ih =>
    unfold hasSub at h ⊢
    rw [Bool.or_eq_true] at h ⊢
    rcases h with h | h
    · left
      rw [ List.isPrefixOf_iff_prefix] at h ⊢
      exact hpq.trans h
    · exact Or.inr (ih h)

/-- C1, amended: for every rendered fragment (hence for every Markdown
input and renderer output), the sanitised result is structurally safe -
only allow-listed tags (so no script, style, iframe, or form element), only
`href`/`title`/`rel` on `a` (so no event-handler attribute), and only
allowed protocols on `href` (so no `javascript:` link) - and its
serialisation never contains the substring `<script>`.  (The original
claim's blanket substring guarantee for `onclick=` and `javascript:` is
refuted by `markdown_sanitize_counterexample`: those strings survive as
inert escaped text.) -/
theorem markdown_sanitize_spec (render : Str → HtmlList) (text : Option Str) :
    GoodL (sanitizeList (render (text.getD []))) ∧
    hasSub ['<', 's', 'c', 'r', 'i', 'p', 't', '>']
      (markdown_to_html render text) = false := by
  refine ⟨sanitizeList_good _, ?_⟩
  by_contra hcon
  rw [Bool.not_eq_false] at hcon
  have h1 : hasSub ['<', 's', 'c'] (markdown_to_html render text) = true :=
    hasSub_mono _ _ _ ⟨['r', 'i', 'p', 't', '>'], rfl⟩ hcon
  have h2 := scRun_dead_of_hasSub _ h1 ScState.s0
  have h3 : scRun ScState.s0 (markdown_to_html render text) = ScState.s0 :=
    scRun_serializeList _ (sanitizeList_good _)
  rw [h3] at h2
  exact ScState.noConfusion h2

/-- C1, counterexample to the claim as stated: the Markdown input
`onclick=x` renders (as any Markdown renderer renders plain text) to a
paragraph with a text node, and the sanitized serialisation
`<p>onclick=x</p>` still contains the substring `onclick=`. -/
theorem markdown_sanitize_counterexample :
    hasSub ['o', 'n', 'c', 'l', 'i', 'c', 'k', '=']
      (markdown_to_html
        (fun s => .cons (.elem ['p'] [] (.cons (.text s) .nil)) .nil)
        (some ['o', 'n', 'c', 'l', 'i', 'c', 'k', '=', 'x'])) = true := by
  decide

/-- C10: both rendering entry points are total on degenerate input - a
missing (`None`) value is coerced to the empty string by `text or ""` /
`value or ""`, and the empty string renders to the empty fragment in
`nl2br`. -/
theorem degenerate_input_spec (render : Str → HtmlList) :
    markdown_to_html render none = markdown_to_html render (some []) ∧
    nl2brOpt none = nl2brOpt (some []) ∧
    nl2brOpt none = [] :=
  ⟨rfl, rfl, rfl⟩

end OnionForum

